import Mathlib

/-!
Verification development for the `cation` core IR
(`src/core_ir/{pauli,symb,expr,canonical}.rs`).

The Rust code is shallowly embedded:

* `f64` is modelled by `F64`: a rational value or the single incomparable
  value `nan`.  Finite doubles are linearly ordered and compare like the
  rationals they denote; every comparison involving NaN is undecided
  (`partial_cmp` returns `None`) and NaN is `!=` to everything, itself
  included, which is all the claims depend on.
* `Vec<Arc<Expr>>` is modelled by `List Expr` (sharing is unobservable for
  immutable values).
* The derived `PartialEq`/`PartialOrd` impls are spelled out as executable
  functions (`Expr.rustEq`, `Expr.cmp`) following Rust's derive semantics:
  variants compare by declaration order first, fields lexicographically
  within a variant, and `None` propagates out of any undecided field
  comparison.
* `Vec::sort_by` / `sort_by_key` (stable sorts) are modelled by the stable
  insertion sort `stableSortBy`; on a comparator that is a total preorder a
  stable sort's output is uniquely determined, which is exactly the contract
  Rust documents.
-/

namespace Cation

/-- Model of a Rust `f64` value: either a finite value (a rational) or NaN.
`-0.0`/`+0.0` and the different NaN payloads are conflated, because the
derived `PartialEq`/`PartialOrd` used by the program cannot tell them
apart. -/
inductive F64 where
  | num (q : ℚ)
  | nan
deriving DecidableEq

/-- Single qubit Pauli operators (`enum Pauli { I, X, Y, Z }`). -/
inductive Pauli where
  | i
  | x
  | y
  | z
deriving DecidableEq

/-- Rust `struct PauliString { ops: Vec<(usize, Pauli)> }`. -/
structure PauliString where
  ops : List (Nat × Pauli)
deriving DecidableEq

/-- Rust `enum Symbol { Named(String), Bound { name: String, value: f64 } }`. -/
inductive Symbol where
  | named (name : String)
  | bound (name : String) (value : F64)
deriving DecidableEq

/-- Rust `enum Expr { Scalar(f64), Symbol(Symbol), Pauli(PauliString),
Sum(Vec<Arc<Expr>>), Product(Vec<Arc<Expr>>) }`. -/
inductive Expr where
  | scalar (v : F64)
  | symbol (s : Symbol)
  | pauli (p : PauliString)
  | sum (terms : List Expr)
  | product (factors : List Expr)

mutual

/-- Decidable structural (Lean-level) equality of expressions.  This is
mathematical identity of the modelled values; the program's own `==`
(`Expr.rustEq` below) differs from it only at NaN. -/
def Expr.decEq : (a b : Expr) → Decidable (a = b)
  | .scalar a, .scalar b => decidable_of_iff (a = b) (by simp)
  | .scalar _, .symbol _ => isFalse (by intro h; cases h)
  | .scalar _, .pauli _ => isFalse (by intro h; cases h)
  | .scalar _, .sum _ => isFalse (by intro h; cases h)
  | .scalar _, .product _ => isFalse (by intro h; cases h)
  | .symbol _, .scalar _ => isFalse (by intro h; cases h)
  | .symbol a, .symbol b => decidable_of_iff (a = b) (by simp)
  | .symbol _, .pauli _ => isFalse (by intro h; cases h)
  | .symbol _, .sum _ => isFalse (by intro h; cases h)
  | .symbol _, .product _ => isFalse (by intro h; cases h)
  | .pauli _, .scalar _ => isFalse (by intro h; cases h)
  | .pauli _, .symbol _ => isFalse (by intro h; cases h)
  | .pauli a, .pauli b => decidable_of_iff (a = b) (by simp)
  | .pauli _, .sum _ => isFalse (by intro h; cases h)
  | .pauli _, .product _ => isFalse (by intro h; cases h)
  | .sum _, .scalar _ => isFalse (by intro h; cases h)
  | .sum _, .symbol _ => isFalse (by intro h; cases h)
  | .sum _, .pauli _ => isFalse (by intro h; cases h)
  | .sum a, .sum b =>
    match Expr.decEqList a b with
    | isTrue h => isTrue (by rw [h])
    | isFalse h => isFalse (by intro hh; cases hh; exact h rfl)
  | .sum _, .product _ => isFalse (by intro h; cases h)
  | .product _, .scalar _ => isFalse (by intro h; cases h)
  | .product _, .symbol _ => isFalse (by intro h; cases h)
  | .product _, .pauli _ => isFalse (by intro h; cases h)
  | .product _, .sum _ => isFalse (by intro h; cases h)
  | .product a, .product b =>
    match Expr.decEqList a b with
    | isTrue h => isTrue (by rw [h])
    | isFalse h => isFalse (by intro hh; cases hh; exact h rfl)

/-- Decidable structural equality of expression lists. -/
def Expr.decEqList : (a b : List Expr) → Decidable (a = b)
  | [], [] => isTrue rfl
  | [], _ :: _ => isFalse (by intro h; cases h)
  | _ :: _, [] => isFalse (by intro h; cases h)
  | a :: as, b :: bs =>
    match Expr.decEq a b, Expr.decEqList as bs with
    | isTrue h1, isTrue h2 => isTrue (by rw [h1, h2])
    | isFalse h1, _ => isFalse (by intro hh; cases hh; exact h1 rfl)
    | isTrue _, isFalse h2 => isFalse (by intro hh; cases hh; exact h2 rfl)

end

instance : DecidableEq Expr := Expr.decEq

/-- Rust `Ord::cmp` on `usize`. -/
def natCmp (a b : Nat) : Ordering :=
  if a < b then .lt else if a = b then .eq else .gt

/-- Rust `PartialOrd::partial_cmp` on finite `f64` values (always decided). -/
def ratCmp (a b : ℚ) : Ordering :=
  if a < b then .lt else if a = b then .eq else .gt

/-- Rust `Ord::cmp` on `char` (code-point order; equals Rust's byte order on
UTF-8 because UTF-8 preserves code-point order). -/
def charCmp (a b : Char) : Ordering :=
  natCmp a.toNat b.toNat

/-- Lexicographic comparison of two lists by a total elementwise
comparison: first difference decides, then length (Rust slice `Ord`). -/
def listCmpWith (f : α → α → Ordering) : List α → List α → Ordering
  | [], [] => .eq
  | [], _ :: _ => .lt
  | _ :: _, [] => .gt
  | a :: as, b :: bs =>
    match f a b with
    | .eq => listCmpWith f as bs
    | o => o

/-- Rust `Ord::cmp` on `String` (lexicographic). -/
def strCmp (a b : String) : Ordering :=
  listCmpWith charCmp a.toList b.toList

/-- Rust `f64::partial_cmp`: decided iff neither side is NaN. -/
def f64Cmp : F64 → F64 → Option Ordering
  | .num a, .num b => some (ratCmp a b)
  | _, _ => none

/-- Rust `f64::eq` (`==`): NaN is unequal to everything, itself included. -/
def f64Eq : F64 → F64 → Bool
  | .num a, .num b => decide (a = b)
  | _, _ => false

/-- Rust `impl Ord for PauliString` (`pauli.rs:47-52`): compares only the
sequences of indices, ignoring the operator stored at each index. -/
def PauliString.cmp (p q : PauliString) : Ordering :=
  listCmpWith natCmp (p.ops.map Prod.fst) (q.ops.map Prod.fst)

/-- Derived `PartialOrd` for `Symbol`: `Named < Bound`; fields compare
lexicographically, and a NaN `value` makes two `Bound`s of equal name
incomparable. -/
def Symbol.cmp : Symbol → Symbol → Option Ordering
  | .named a, .named b => some (strCmp a b)
  | .named _, .bound _ _ => some .lt
  | .bound _ _, .named _ => some .gt
  | .bound n1 v1, .bound n2 v2 =>
    match strCmp n1 n2 with
    | .eq => f64Cmp v1 v2
    | o => some o

/-- Derived `PartialEq` for `Symbol`. -/
def Symbol.rustEq : Symbol → Symbol → Bool
  | .named a, .named b => a == b
  | .bound n1 v1, .bound n2 v2 => n1 == n2 && f64Eq v1 v2
  | _, _ => false

mutual

/-- Derived `PartialOrd::partial_cmp` for `Expr` (`expr.rs:15`): variant
(declaration) order decides across different constructors; within a
constructor the payloads compare (`f64` partially, `PauliString` by its
index-only `Ord`, term lists lexicographically). -/
def Expr.cmp : Expr → Expr → Option Ordering
  | .scalar a, .scalar b => f64Cmp a b
  | .scalar _, .symbol _ => some .lt
  | .scalar _, .pauli _ => some .lt
  | .scalar _, .sum _ => some .lt
  | .scalar _, .product _ => some .lt
  | .symbol _, .scalar _ => some .gt
  | .symbol a, .symbol b => Symbol.cmp a b
  | .symbol _, .pauli _ => some .lt
  | .symbol _, .sum _ => some .lt
  | .symbol _, .product _ => some .lt
  | .pauli _, .scalar _ => some .gt
  | .pauli _, .symbol _ => some .gt
  | .pauli a, .pauli b => some (PauliString.cmp a b)
  | .pauli _, .sum _ => some .lt
  | .pauli _, .product _ => some .lt
  | .sum _, .scalar _ => some .gt
  | .sum _, .symbol _ => some .gt
  | .sum _, .pauli _ => some .gt
  | .sum a, .sum b => Expr.cmpList a b
  | .sum _, .product _ => some .lt
  | .product _, .scalar _ => some .gt
  | .product _, .symbol _ => some .gt
  | .product _, .pauli _ => some .gt
  | .product _, .sum _ => some .gt
  | .product a, .product b => Expr.cmpList a b

/-- Rust `PartialOrd` on `Vec<Arc<Expr>>`: elementwise, first difference (or
first undecided comparison) wins, then length. -/
def Expr.cmpList : List Expr → List Expr → Option Ordering
  | [], [] => some .eq
  | [], _ :: _ => some .lt
  | _ :: _, [] => some .gt
  | a :: as, b :: bs =>
    match Expr.cmp a b with
    | some .eq => Expr.cmpList as bs
    | r => r

end

mutual

/-- Derived `PartialEq` for `Expr`: structural, except that it inherits
`f64`'s irreflexivity at NaN. -/
def Expr.rustEq : Expr → Expr → Bool
  | .scalar a, .scalar b => f64Eq a b
  | .symbol a, .symbol b => Symbol.rustEq a b
  | .pauli a, .pauli b => a == b
  | .sum a, .sum b => Expr.rustEqList a b
  | .product a, .product b => Expr.rustEqList a b
  | _, _ => false

/-- Rust `PartialEq` on `Vec<Arc<Expr>>`. -/
def Expr.rustEqList : List Expr → List Expr → Bool
  | [], [] => true
  | a :: as, b :: bs => Expr.rustEq a b && Expr.rustEqList as bs
  | _, _ => false

end

/-- The comparator the canonicalizer passes to `sort_by`
(`canonical.rs:100`): `a.partial_cmp(b).unwrap_or(Ordering::Equal)`. -/
def Expr.sortCmp (a b : Expr) : Ordering :=
  (Expr.cmp a b).getD .eq

/-- The "less or tied" Boolean relation induced by the sort comparator; a
stable sort ordered by `Expr.sortCmp` keeps `a` before `b` exactly when
`Expr.sortLe a b`. -/
def Expr.sortLe (a b : Expr) : Bool :=
  Expr.sortCmp a b ≠ .gt

/-- Stable insertion of `a` into `l`: `a` goes in front of the first
element it is `le`-before-or-tied-with. -/
def stableInsert (le : α → α → Bool) (a : α) : List α → List α
  | [] => [a]
  | b :: l => if le a b then a :: b :: l else b :: stableInsert le a l

/-- Stable sort by a Boolean "not-greater" relation.  Models Rust's stable
`Vec::sort_by`/`sort_by_key`: whenever the comparator is a total preorder
the output of a stable sort is uniquely determined, so any stable sorting
algorithm computes this function. -/
def stableSortBy (le : α → α → Bool) : List α → List α
  | [] => []
  | a :: l => stableInsert le a (stableSortBy le l)

/-- The body of the `Sum` loop of `flatten` (`canonical.rs:38-47`): a
flattened term that is itself a `Sum` contributes its terms, spliced in
place; any other flattened term is kept as a single element. -/
def Expr.spliceSum : Expr → List Expr
  | .sum inner => inner
  | ft => [ft]

/-- The body of the `Product` loop of `flatten` (`canonical.rs:52-61`),
analogous to the `Sum` loop. -/
def Expr.spliceProd : Expr → List Expr
  | .product inner => inner
  | ft => [ft]

mutual

/-- Rust `Flatten::flatten` for `Expr` (`canonical.rs:34-73`): unrolls
associative nesting of `Sum` inside `Sum` and `Product` inside `Product`;
leaves are returned unchanged. -/
def Expr.flatten : Expr → Expr
  | .sum ts => .sum (Expr.flattenSumList ts)
  | .product fs => .product (Expr.flattenProdList fs)
  | e => e

/-- The `Sum` loop of `flatten`: each term is flattened and spliced. -/
def Expr.flattenSumList : List Expr → List Expr
  | [] => []
  | t :: ts => Expr.spliceSum (Expr.flatten t) ++ Expr.flattenSumList ts

/-- The `Product` loop of `flatten`: each factor is flattened and
spliced. -/
def Expr.flattenProdList : List Expr → List Expr
  | [] => []
  | t :: ts => Expr.spliceProd (Expr.flatten t) ++ Expr.flattenProdList ts

end

/-- Size (`sizeOf`) of an appended list, used for the termination argument of the
canonicalizer. -/
theorem sizeOf_append_expr (l1 l2 : List Expr) :
    sizeOf (l1 ++ l2) + 1 = sizeOf l1 + sizeOf l2 := by
  induction l1 with
  | nil => simp; omega
  | cons a as ih => simp [List.cons.sizeOf_spec]; omega

/-- Splicing adds at most the `Sum` wrapper's overhead. -/
theorem sizeOf_spliceSum_le (f : Expr) : sizeOf (Expr.spliceSum f) ≤ sizeOf f + 2 := by
  cases f <;> simp [Expr.spliceSum, Expr.sum.sizeOf_spec] <;> omega

/-- Splicing adds at most the `Product` wrapper's overhead. -/
theorem sizeOf_spliceProd_le (f : Expr) : sizeOf (Expr.spliceProd f) ≤ sizeOf f + 2 := by
  cases f <;> simp [Expr.spliceProd, Expr.product.sizeOf_spec] <;> omega

mutual

/-- Flattening never grows an expression. -/
theorem sizeOf_flatten_le : (e : Expr) → sizeOf (Expr.flatten e) ≤ sizeOf e
  | .scalar _ => le_refl _
  | .symbol _ => le_refl _
  | .pauli _ => le_refl _
  | .sum ts => by
    have h := sizeOf_flattenSumList_le ts
    simp only [Expr.flatten, Expr.sum.sizeOf_spec]
    omega
  | .product fs => by
    have h := sizeOf_flattenProdList_le fs
    simp only [Expr.flatten, Expr.product.sizeOf_spec]
    omega

/-- Flattening never grows the term list of a `Sum`. -/
theorem sizeOf_flattenSumList_le : (ts : List Expr) →
    sizeOf (Expr.flattenSumList ts) ≤ sizeOf ts
  | [] => le_refl _
  | t :: ts => by
    have hts := sizeOf_flattenSumList_le ts
    have ht := sizeOf_flatten_le t
    have hs := sizeOf_spliceSum_le (Expr.flatten t)
    have happ := sizeOf_append_expr (Expr.spliceSum (Expr.flatten t))
      (Expr.flattenSumList ts)
    simp only [Expr.flattenSumList, List.cons.sizeOf_spec]
    omega

/-- Flattening never grows the factor list of a `Product`. -/
theorem sizeOf_flattenProdList_le : (ts : List Expr) →
    sizeOf (Expr.flattenProdList ts) ≤ sizeOf ts
  | [] => le_refl _
  | t :: ts => by
    have hts := sizeOf_flattenProdList_le ts
    have ht := sizeOf_flatten_le t
    have hs := sizeOf_spliceProd_le (Expr.flatten t)
    have happ := sizeOf_append_expr (Expr.spliceProd (Expr.flatten t))
      (Expr.flattenProdList ts)
    simp only [Expr.flattenProdList, List.cons.sizeOf_spec]
    omega

end

/-- A member of the term list of a flattened expression is strictly
smaller than the original expression. -/
theorem sizeOf_lt_of_mem_flatten_sum {e : Expr} {ts : List Expr} {t : Expr}
    (h : Expr.flatten e = .sum ts) (hm : t ∈ ts) : sizeOf t < sizeOf e := by
  have h1 := sizeOf_flatten_le e
  rw [h] at h1
  simp only [Expr.sum.sizeOf_spec] at h1
  have h2 := List.sizeOf_lt_of_mem hm
  omega

/-- A member of the factor list of a flattened expression is strictly
smaller than the original expression. -/
theorem sizeOf_lt_of_mem_flatten_prod {e : Expr} {fs : List Expr} {t : Expr}
    (h : Expr.flatten e = .product fs) (hm : t ∈ fs) : sizeOf t < sizeOf e := by
  have h1 := sizeOf_flatten_le e
  rw [h] at h1
  simp only [Expr.product.sizeOf_spec] at h1
  have h2 := List.sizeOf_lt_of_mem hm
  omega

/-- Rust `Expr::canonical_inner` (`canonical.rs:88-113`): flatten the whole
expression, then recursively canonicalize each child; the terms of a `Sum`
are then sorted by `partial_cmp(..).unwrap_or(Equal)` while the factors of
a `Product` are deliberately left in order. -/
def Expr.canonical_inner (e : Expr) : Expr :=
  match h : Expr.flatten e with
  | .sum ts => .sum (stableSortBy Expr.sortLe
      (ts.attach.map fun t => Expr.canonical_inner t.1))
  | .product fs => .product (fs.attach.map fun t => Expr.canonical_inner t.1)
  | f => f
termination_by sizeOf e
decreasing_by
  · exact sizeOf_lt_of_mem_flatten_sum h t.2
  · exact sizeOf_lt_of_mem_flatten_prod h t.2

/-- The canonical forms of the flattened terms of a `Sum`, in their
pre-sort order: what `canonical_inner` sorts when it canonicalizes
`Sum(ts)`. -/
def canonicalSumTerms (ts : List Expr) : List Expr :=
  (Expr.flattenSumList ts).map Expr.canonical_inner

/-- Rust `struct Canonicalized<T>`: the opaque marker wrapper returned by the
canonicalization procedure. -/
structure Canonicalized (T : Type) where
  inner : T

/-- Rust `Canonicalized::get`. -/
def Canonicalized.get (c : Canonicalized Expr) : Expr := c.inner

/-- Rust `Canonical::canonical`: wraps the canonicalized expression. -/
def Expr.canonical (e : Expr) : Canonicalized Expr :=
  ⟨Expr.canonical_inner e⟩

/-- Rust `PauliString::new` (`pauli.rs:65-73`): drop identity operators, then
stable-sort by qubit index (`sort_by_key`). -/
def PauliString.new (ops : List (Nat × Pauli)) : PauliString :=
  ⟨stableSortBy (fun a b => decide (a.1 ≤ b.1))
    (ops.filter fun p => decide (p.2 ≠ Pauli.i))⟩

/-- The error message built by `TryFrom<char> for Pauli`
(`format!("Invalid Pauli character: '{}'", c)`). -/
def pauliErrMsg (c : Char) : String :=
  "Invalid Pauli character: \x27" ++ c.toString ++ "\x27"

/-- Rust `TryFrom<char> for Pauli` (`pauli.rs:19-33`). -/
def Pauli.tryFromChar (c : Char) : Except String Pauli :=
  if c = 'I' then .ok .i
  else if c = 'X' then .ok .x
  else if c = 'Y' then .ok .y
  else if c = 'Z' then .ok .z
  else .error (pauliErrMsg c)

/-- Rust `Iterator::collect::<Result<Vec<_>, String>>`: keep all successes, or
stop at the first error. -/
def collectResults : List (Except String (Nat × Pauli)) →
    Except String (List (Nat × Pauli))
  | [] => .ok []
  | .error e :: _ => .error e
  | .ok a :: rest => (collectResults rest).map (a :: ·)

/-- Rust `PauliString::from_string` (`pauli.rs:78-89`): each character is parsed
as a Pauli operator with its position as qubit index; the collected list is
normalized by `PauliString::new`. -/
def PauliString.from_string (s : String) : Except String PauliString :=
  (collectResults ((s.toList.enum).map fun ic =>
    (Pauli.tryFromChar ic.2).map fun p => (ic.1, p))).map PauliString.new

/-- The characters accepted by the parser. -/
def isPauliChar (c : Char) : Bool :=
  c == 'I' || c == 'X' || c == 'Y' || c == 'Z'

/-- Total version of the character parser (valid characters only; used to
state what `from_string` returns on success). -/
def forcePauli (c : Char) : Pauli :=
  match Pauli.tryFromChar c with
  | .ok p => p
  | .error _ => .i

/-- Whether an `F64` is an actual number (not NaN). -/
def F64.isNum : F64 → Bool
  | .num _ => true
  | .nan => false

/-- Whether a `Symbol` carries no NaN bound value. -/
def Symbol.nanFree : Symbol → Bool
  | .named _ => true
  | .bound _ v => v.isNum

mutual

/-- No NaN appears in the expression (neither as a `Scalar` nor as the
bound value of a `Symbol`). -/
def Expr.nanFree : Expr → Bool
  | .scalar v => v.isNum
  | .symbol s => s.nanFree
  | .pauli _ => true
  | .sum ts => Expr.nanFreeList ts
  | .product fs => Expr.nanFreeList fs

/-- No NaN appears in any expression of the list. -/
def Expr.nanFreeList : List Expr → Bool
  | [] => true
  | t :: ts => Expr.nanFree t && Expr.nanFreeList ts

end

/-- The declaration-order rank of an `Expr` variant, the quantity Rust's
derived `PartialOrd` compares first. -/
def Expr.rank : Expr → Nat
  | .scalar _ => 0
  | .symbol _ => 1
  | .pauli _ => 2
  | .sum _ => 3
  | .product _ => 4

/-- Whether the top constructor is `Sum`. -/
def Expr.isSum : Expr → Bool
  | .sum _ => true
  | _ => false

/-- Whether the top constructor is `Product`. -/
def Expr.isProduct : Expr → Bool
  | .product _ => true
  | _ => false

/-- Whether the expression is a leaf (`Scalar`, `Symbol` or `Pauli`). -/
def Expr.isLeaf : Expr → Bool
  | .scalar _ => true
  | .symbol _ => true
  | .pauli _ => true
  | _ => false

/-- Unfolding of `canonical_inner` when the flattened input is a `Sum`. -/
theorem canonical_inner_of_sum {e : Expr} {ts : List Expr}
    (h : Expr.flatten e = .sum ts) :
    Expr.canonical_inner e
      = .sum (stableSortBy Expr.sortLe (ts.map Expr.canonical_inner)) := by
  rw [Expr.canonical_inner.eq_def]
  split
  · rename_i ts2 heq
    rw [h] at heq
    cases heq
    rw [List.attach_map_val]
  · rename_i fs2 heq
    rw [h] at heq
    cases heq
  · rename_i hne1 _
    exact absurd h (hne1 ts)

/-- Unfolding of `canonical_inner` when the flattened input is a
`Product`. -/
theorem canonical_inner_of_product {e : Expr} {fs : List Expr}
    (h : Expr.flatten e = .product fs) :
    Expr.canonical_inner e = .product (fs.map Expr.canonical_inner) := by
  rw [Expr.canonical_inner.eq_def]
  split
  · rename_i ts2 heq
    rw [h] at heq
    cases heq
  · rename_i fs2 heq
    rw [h] at heq
    cases heq
    rw [List.attach_map_val]
  · rename_i _ hne2
    exact absurd h (hne2 fs)

/-- Unfolding of `canonical_inner` when the flattened input is a leaf. -/
theorem canonical_inner_of_leaf {e f : Expr} (h : Expr.flatten e = f)
    (hf : f.isLeaf = true) : Expr.canonical_inner e = f := by
  rw [Expr.canonical_inner.eq_def]
  split
  · rename_i ts2 heq
    rw [h] at heq
    cases heq
    cases hf
  · rename_i fs2 heq
    rw [h] at heq
    cases heq
    cases hf
  · exact h

/-- Inserting an element permutes consing it. -/
theorem stableInsert_perm (le : α → α → Bool) (a : α) (l : List α) :
    (stableInsert le a l).Perm (a :: l) := by
  induction l with
  | nil => exact List.Perm.refl _
  | cons b l ih =>
    simp only [stableInsert]
    split
    · exact List.Perm.refl _
    · exact (ih.cons b).trans (List.Perm.swap a b l)

/-- A stable sort permutes its input. -/
theorem stableSortBy_perm (le : α → α → Bool) (l : List α) :
    (stableSortBy le l).Perm l := by
  induction l with
  | nil => exact List.Perm.refl _
  | cons a l ih => exact (stableInsert_perm le a _).trans (ih.cons a)

/-- The head of an insertion is the inserted element or the old head. -/
theorem stableInsert_head? (le : α → α → Bool) (a : α) (l : List α) :
    (stableInsert le a l).head? = some a ∨ (stableInsert le a l).head? = l.head? := by
  cases l with
  | nil => left; rfl
  | cons b l =>
    simp only [stableInsert]
    split
    · left; rfl
    · right; rfl

/-- Inserting into an adjacently sorted list keeps it adjacently sorted,
provided the relation is total in the swap sense.  No transitivity is
needed, which matters: the comparator the canonicalizer uses is not
transitive in the presence of NaN, yet is always total in this sense. -/
theorem stableInsert_chain' (le : α → α → Bool)
    (htot : ∀ a b, le a b = false → le b a = true) (a : α) :
    ∀ l : List α, l.Chain' (le · · = true) →
      (stableInsert le a l).Chain' (le · · = true) := by
  intro l
  induction l with
  | nil => intro _; simp [stableInsert]
  | cons b l ih =>
    intro hch
    simp only [stableInsert]
    split
    · rename_i hle
      exact List.chain'_cons.mpr ⟨hle, hch⟩
    · rename_i hle
      have hba : le b a = true := htot a b (by simpa using hle)
      apply List.chain'_cons'.mpr
      refine ⟨fun y hy => ?_, ih (List.chain'_cons'.mp hch).2⟩
      rcases stableInsert_head? le a l with hh | hh
      · rw [hh] at hy
        cases hy
        exact hba
      · rw [hh] at hy
        exact (List.chain'_cons'.mp hch).1 y hy

/-- The output of a stable sort is adjacently sorted whenever the relation
is total in the swap sense. -/
theorem stableSortBy_chain' (le : α → α → Bool)
    (htot : ∀ a b, le a b = false → le b a = true) (l : List α) :
    (stableSortBy le l).Chain' (le · · = true) := by
  induction l with
  | nil => simp [stableSortBy]
  | cons a l ih => exact stableInsert_chain' le htot a _ ih

/-- An adjacently sorted list is a fixed point of the stable sort. -/
theorem stableSortBy_of_chain' (le : α → α → Bool) :
    ∀ l : List α, l.Chain' (le · · = true) → stableSortBy le l = l := by
  intro l
  induction l with
  | nil => intro _; rfl
  | cons a l ih =>
    intro hch
    simp only [stableSortBy]
    rw [ih (List.chain'_cons'.mp hch).2]
    cases l with
    | nil => rfl
    | cons b l2 =>
      have hab : le a b = true := (List.chain'_cons.mp hch).1
      simp [stableInsert, hab]

/-- Sorting twice is sorting once (for a swap-total relation). -/
theorem stableSortBy_idem (le : α → α → Bool)
    (htot : ∀ a b, le a b = false → le b a = true) (l : List α) :
    stableSortBy le (stableSortBy le l) = stableSortBy le l :=
  stableSortBy_of_chain' le _ (stableSortBy_chain' le htot l)

/-- An adjacent chain is pairwise sorted when the relation is transitive on
the members of the list. -/
theorem pairwise_of_chain'_trans {R : α → α → Prop} :
    ∀ l : List α, (∀ a ∈ l, ∀ b ∈ l, ∀ c ∈ l, R a b → R b c → R a c) →
      l.Chain' R → l.Pairwise R
  | [] => fun _ _ => List.Pairwise.nil
  | [a] => fun _ _ => by simp
  | a :: b :: l => fun htr hch => by
    have hab := (List.chain'_cons.mp hch).1
    have htl := (List.chain'_cons.mp hch).2
    have ihp := pairwise_of_chain'_trans (b :: l)
      (fun x hx y hy z hz => htr x (List.mem_cons.mpr (Or.inr hx))
        y (List.mem_cons.mpr (Or.inr hy)) z (List.mem_cons.mpr (Or.inr hz))) htl
    apply List.pairwise_cons.mpr
    refine ⟨fun y hy => ?_, ihp⟩
    rcases List.mem_cons.mp hy with hyb | hyl
    · cases hyb
      exact hab
    · exact htr a (by simp) b (by simp) y (by simp [hyl]) hab
        ((List.pairwise_cons.mp ihp).1 y hyl)

/-- Two pairwise-sorted lists that are permutations of one another are
equal, provided the relation is antisymmetric on the members. -/
theorem eq_of_perm_of_pairwise {R : α → α → Prop} :
    ∀ (l₁ l₂ : List α), l₁.Perm l₂ →
      (∀ a ∈ l₁, ∀ b ∈ l₁, R a b → R b a → a = b) →
      l₁.Pairwise R → l₂.Pairwise R → l₁ = l₂
  | [], l₂ => fun hp _ _ _ => ((List.nil_perm).mp hp).symm
  | a :: l₁, l₂ => fun hp hanti hp1 hp2 => by
    cases l₂ with
    | nil => exact absurd (List.perm_nil.mp hp) (by simp)
    | cons b l₂ =>
      have hab : a = b := by
        have hb1 : b ∈ a :: l₁ := hp.mem_iff.mpr (by simp)
        rcases List.mem_cons.mp hb1 with h | hbl
        · exact h.symm
        · have ha2 : a ∈ b :: l₂ := hp.mem_iff.mp (by simp)
          rcases List.mem_cons.mp ha2 with h | hal
          · exact h
          · have hRab : R a b := (List.pairwise_cons.mp hp1).1 b hbl
            have hRba : R b a := (List.pairwise_cons.mp hp2).1 a hal
            exact hanti a (by simp) b (by simp [hbl]) hRab hRba
      cases hab
      have hpl : l₁.Perm l₂ := hp.cons_inv
      rw [eq_of_perm_of_pairwise l₁ l₂ hpl
        (fun x hx y hy => hanti x (List.mem_cons.mpr (Or.inr hx))
          y (List.mem_cons.mpr (Or.inr hy)))
        (List.pairwise_cons.mp hp1).2 (List.pairwise_cons.mp hp2).2]

/-- Comparison `natCmp` yields `lt` exactly on `<`. -/
theorem natCmp_eq_lt {a b : Nat} : natCmp a b = .lt ↔ a < b := by
  unfold natCmp
  rcases lt_trichotomy a b with h | h | h
  · simp [h]
  · simp [h, lt_irrefl]
  · simp [not_lt_of_gt h, h.ne', not_lt_of_gt h]

/-- Comparison `natCmp` yields `eq` exactly on `=`. -/
theorem natCmp_eq_eq {a b : Nat} : natCmp a b = .eq ↔ a = b := by
  unfold natCmp
  rcases lt_trichotomy a b with h | h | h
  · simp [h, ne_of_lt h]
  · simp [h, lt_irrefl]
  · simp [not_lt_of_gt h, h.ne']

/-- Comparison `natCmp` yields `gt` exactly on `>`. -/
theorem natCmp_eq_gt {a b : Nat} : natCmp a b = .gt ↔ b < a := by
  unfold natCmp
  rcases lt_trichotomy a b with h | h | h
  · simp [h, not_lt_of_gt h]
  · simp [h, lt_irrefl]
  · simp [not_lt_of_gt h, h.ne', h]

/-- Swapping the arguments of `natCmp` swaps the verdict. -/
theorem natCmp_swap (a b : Nat) : natCmp b a = (natCmp a b).swap := by
  cases h : natCmp a b with
  | lt => simp [Ordering.swap, natCmp_eq_gt, natCmp_eq_lt.mp h]
  | eq => simp [Ordering.swap, natCmp_eq_eq, (natCmp_eq_eq.mp h).symm]
  | gt => simp [Ordering.swap, natCmp_eq_lt, natCmp_eq_gt.mp h]

/-- Non-`gt` verdicts of `natCmp` compose via `Ordering.then`. -/
theorem natCmp_then {a b c : Nat} (h1 : natCmp a b ≠ .gt) (h2 : natCmp b c ≠ .gt) :
    natCmp a c = (natCmp a b).then (natCmp b c) := by
  cases hab : natCmp a b with
  | lt =>
    have h1' := natCmp_eq_lt.mp hab
    cases hbc : natCmp b c with
    | lt => simp [Ordering.then, natCmp_eq_lt.mpr (h1'.trans (natCmp_eq_lt.mp hbc))]
    | eq => simp [Ordering.then, natCmp_eq_lt.mpr ((natCmp_eq_eq.mp hbc) ▸ h1')]
    | gt => exact absurd hbc h2
  | eq =>
    have h1' := natCmp_eq_eq.mp hab
    cases h1'
    simp [Ordering.then]
  | gt => exact absurd hab h1

/-- Comparison `ratCmp` yields `lt` exactly on `<`. -/
theorem ratCmp_eq_lt {a b : ℚ} : ratCmp a b = .lt ↔ a < b := by
  unfold ratCmp
  rcases lt_trichotomy a b with h | h | h
  · simp [h]
  · simp [h, lt_irrefl]
  · simp [not_lt_of_gt h, h.ne']

/-- Comparison `ratCmp` yields `eq` exactly on `=`. -/
theorem ratCmp_eq_eq {a b : ℚ} : ratCmp a b = .eq ↔ a = b := by
  unfold ratCmp
  rcases lt_trichotomy a b with h | h | h
  · simp [h, ne_of_lt h]
  · simp [h, lt_irrefl]
  · simp [not_lt_of_gt h, h.ne']

/-- Comparison `ratCmp` yields `gt` exactly on `>`. -/
theorem ratCmp_eq_gt {a b : ℚ} : ratCmp a b = .gt ↔ b < a := by
  unfold ratCmp
  rcases lt_trichotomy a b with h | h | h
  · simp [h, not_lt_of_gt h]
  · simp [h, lt_irrefl]
  · simp [not_lt_of_gt h, h.ne', h]

/-- Swapping the arguments of `ratCmp` swaps the verdict. -/
theorem ratCmp_swap (a b : ℚ) : ratCmp b a = (ratCmp a b).swap := by
  cases h : ratCmp a b with
  | lt => simp [Ordering.swap, ratCmp_eq_gt, ratCmp_eq_lt.mp h]
  | eq => simp [Ordering.swap, ratCmp_eq_eq, (ratCmp_eq_eq.mp h).symm]
  | gt => simp [Ordering.swap, ratCmp_eq_lt, ratCmp_eq_gt.mp h]

/-- Non-`gt` verdicts of `ratCmp` compose via `Ordering.then`. -/
theorem ratCmp_then {a b c : ℚ} (h1 : ratCmp a b ≠ .gt) (h2 : ratCmp b c ≠ .gt) :
    ratCmp a c = (ratCmp a b).then (ratCmp b c) := by
  cases hab : ratCmp a b with
  | lt =>
    have h1' := ratCmp_eq_lt.mp hab
    cases hbc : ratCmp b c with
    | lt => simp [Ordering.then, ratCmp_eq_lt.mpr (h1'.trans (ratCmp_eq_lt.mp hbc))]
    | eq => simp [Ordering.then, ratCmp_eq_lt.mpr ((ratCmp_eq_eq.mp hbc) ▸ h1')]
    | gt => exact absurd hbc h2
  | eq =>
    have h1' := ratCmp_eq_eq.mp hab
    cases h1'
    simp [Ordering.then]
  | gt => exact absurd hab h1

/-- Swapping the arguments of `charCmp` swaps the verdict. -/
theorem charCmp_swap (a b : Char) : charCmp b a = (charCmp a b).swap :=
  natCmp_swap _ _

/-- Non-`gt` verdicts of `charCmp` compose via `Ordering.then`. -/
theorem charCmp_then {a b c : Char} (h1 : charCmp a b ≠ .gt) (h2 : charCmp b c ≠ .gt) :
    charCmp a c = (charCmp a b).then (charCmp b c) :=
  natCmp_then h1 h2

/-- Swapping the arguments of a lexicographic list comparison swaps the
verdict, provided the element comparison swaps. -/
theorem listCmpWith_swap (f : α → α → Ordering)
    (hsw : ∀ a b, f b a = (f a b).swap) :
    ∀ l1 l2 : List α, listCmpWith f l2 l1 = (listCmpWith f l1 l2).swap
  | [], [] => rfl
  | [], _ :: _ => rfl
  | _ :: _, [] => rfl
  | a :: as, b :: bs => by
    simp only [listCmpWith]
    rw [hsw a b]
    cases f a b with
    | lt => rfl
    | eq => exact listCmpWith_swap f hsw as bs
    | gt => rfl

/-- Non-`gt` verdicts of a lexicographic list comparison compose via
`Ordering.then`, provided the element comparison composes. -/
theorem listCmpWith_then (f : α → α → Ordering)
    (hcomp : ∀ a b c, f a b ≠ .gt → f b c ≠ .gt → f a c = (f a b).then (f b c)) :
    ∀ l1 l2 l3 : List α, listCmpWith f l1 l2 ≠ .gt → listCmpWith f l2 l3 ≠ .gt →
      listCmpWith f l1 l3 = (listCmpWith f l1 l2).then (listCmpWith f l2 l3)
  | [], [], [] => fun _ _ => rfl
  | [], [], _ :: _ => fun _ _ => rfl
  | [], _ :: _, [] => fun _ h2 => absurd rfl h2
  | [], _ :: _, _ :: _ => fun _ _ => rfl
  | _ :: _, [], _ => fun h1 _ => absurd rfl h1
  | _ :: _, _ :: _, [] => fun _ h2 => absurd rfl h2
  | a :: as, b :: bs, c :: cs => fun h1 h2 => by
    simp only [listCmpWith] at h1 h2 ⊢
    cases hab : f a b with
    | gt => rw [hab] at h1; exact absurd rfl h1
    | lt =>
      cases hbc : f b c with
      | gt => rw [hbc] at h2; exact absurd rfl h2
      | lt =>
        have := hcomp a b c (by simp [hab]) (by simp [hbc])
        rw [hab, hbc] at this
        rw [this]
        rw [hab] at h1
        cases hac2 : listCmpWith f bs cs <;> simp [Ordering.then]
      | eq =>
        have := hcomp a b c (by simp [hab]) (by simp [hbc])
        rw [hab, hbc] at this
        rw [this]
        rw [hab] at h1
        simp [Ordering.then]
    | eq =>
      cases hbc : f b c with
      | gt => rw [hbc] at h2; exact absurd rfl h2
      | lt =>
        have := hcomp a b c (by simp [hab]) (by simp [hbc])
        rw [hab, hbc] at this
        rw [this]
        rw [hab] at h1
        rw [hbc] at h2
        simp only [Ordering.then]
        cases hx : listCmpWith f as bs with
        | gt => exact absurd hx h1
        | lt => simp [Ordering.then]
        | eq => simp [Ordering.then]
      | eq =>
        have := hcomp a b c (by simp [hab]) (by simp [hbc])
        rw [hab, hbc] at this
        rw [this]
        rw [hab] at h1
        rw [hbc] at h2
        simp only [Ordering.then]
        exact listCmpWith_then f hcomp as bs cs h1 h2

/-- Equality (`eq`) verdicts of a lexicographic list comparison mean elementwise `eq`
verdicts and equal lengths. -/
theorem listCmpWith_eq_eq (f : α → α → Ordering)
    (heq : ∀ a b, f a b = .eq ↔ a = b) :
    ∀ l1 l2 : List α, listCmpWith f l1 l2 = .eq ↔ l1 = l2
  | [], [] => by simp [listCmpWith]
  | [], _ :: _ => by simp [listCmpWith]
  | _ :: _, [] => by simp [listCmpWith]
  | a :: as, b :: bs => by
    simp only [listCmpWith]
    cases hab : f a b with
    | lt =>
      constructor
      · intro h; cases h
      · intro h
        cases h
        have hfe : f a a = .eq := (heq a a).mpr rfl
        rw [hab] at hfe
        cases hfe
    | gt =>
      constructor
      · intro h; cases h
      · intro h
        cases h
        have hfe : f a a = .eq := (heq a a).mpr rfl
        rw [hab] at hfe
        cases hfe
    | eq =>
      rw [listCmpWith_eq_eq f heq as bs]
      have hab' := (heq a b).mp hab
      cases hab'
      simp

/-- Verdict `lt` absorbs on the left of `Ordering.then`. -/
theorem lt_then (o : Ordering) : Ordering.lt.then o = .lt := rfl

/-- Verdict `eq` is the left identity of `Ordering.then`. -/
theorem eq_then (o : Ordering) : Ordering.eq.then o = o := rfl

/-- A non-`gt` ordering followed by `lt` is `lt`. -/
theorem then_lt_of_ne_gt {o : Ordering} (h : o ≠ .gt) : o.then .lt = .lt := by
  cases o <;> simp_all [Ordering.then]

/-- Swapping the arguments of `f64Cmp` swaps the verdict (undecided stays
undecided). -/
theorem f64Cmp_swap (a b : F64) : f64Cmp b a = (f64Cmp a b).map Ordering.swap := by
  cases a <;> cases b <;> simp [f64Cmp]
  exact ratCmp_swap _ _

/-- Swapping the arguments of `strCmp` swaps the verdict. -/
theorem strCmp_swap (a b : String) : strCmp b a = (strCmp a b).swap :=
  listCmpWith_swap charCmp charCmp_swap _ _

/-- Non-`gt` verdicts of `strCmp` compose via `Ordering.then`. -/
theorem strCmp_then {a b c : String} (h1 : strCmp a b ≠ .gt) (h2 : strCmp b c ≠ .gt) :
    strCmp a c = (strCmp a b).then (strCmp b c) :=
  listCmpWith_then charCmp (fun _ _ _ hx hy => charCmp_then hx hy) _ _ _ h1 h2

/-- Swapping the arguments of `PauliString.cmp` swaps the verdict. -/
theorem pauliCmp_swap (p q : PauliString) :
    PauliString.cmp q p = (PauliString.cmp p q).swap :=
  listCmpWith_swap natCmp natCmp_swap _ _

/-- Non-`gt` verdicts of `PauliString.cmp` compose via `Ordering.then`. -/
theorem pauliCmp_then {p q r : PauliString} (h1 : PauliString.cmp p q ≠ .gt)
    (h2 : PauliString.cmp q r ≠ .gt) :
    PauliString.cmp p r = (PauliString.cmp p q).then (PauliString.cmp q r) :=
  listCmpWith_then natCmp (fun _ _ _ hx hy => natCmp_then hx hy) _ _ _ h1 h2

/-- Swapping the arguments of `Symbol.cmp` swaps the verdict. -/
theorem symbolCmp_swap (a b : Symbol) :
    Symbol.cmp b a = (Symbol.cmp a b).map Ordering.swap := by
  cases a with
  | named n1 =>
    cases b with
    | named n2 => simp [Symbol.cmp, strCmp_swap n1 n2]
    | bound n2 v2 => simp [Symbol.cmp, Ordering.swap]
  | bound n1 v1 =>
    cases b with
    | named n2 => simp [Symbol.cmp, Ordering.swap]
    | bound n2 v2 =>
      simp only [Symbol.cmp]
      rw [strCmp_swap n1 n2]
      cases strCmp n1 n2 with
      | lt => simp [Ordering.swap]
      | gt => simp [Ordering.swap]
      | eq => simp [Ordering.swap, f64Cmp_swap v1 v2]

/-- Comparison `Symbol.cmp` is decided on NaN-free symbols. -/
theorem symbolCmp_isSome {a b : Symbol} (ha : a.nanFree = true) (hb : b.nanFree = true) :
    (Symbol.cmp a b).isSome = true := by
  cases a with
  | named n1 =>
    cases b with
    | named n2 => simp [Symbol.cmp]
    | bound n2 v2 => simp [Symbol.cmp]
  | bound n1 v1 =>
    cases b with
    | named n2 => simp [Symbol.cmp]
    | bound n2 v2 =>
      simp only [Symbol.cmp]
      cases v1 with
      | nan => simp [Symbol.nanFree, F64.isNum] at ha
      | num q1 =>
        cases v2 with
        | nan => simp [Symbol.nanFree, F64.isNum] at hb
        | num q2 => cases strCmp n1 n2 <;> simp [f64Cmp]

/-- Non-`gt` verdicts of `Symbol.cmp` compose via `Ordering.then` on
NaN-free symbols. -/
theorem symbolCmp_then {a b c : Symbol} (ha : a.nanFree = true) (hb : b.nanFree = true)
    (hc : c.nanFree = true) {o1 o2 : Ordering} (h1 : Symbol.cmp a b = some o1)
    (h2 : Symbol.cmp b c = some o2) (hg1 : o1 ≠ .gt) (hg2 : o2 ≠ .gt) :
    Symbol.cmp a c = some (o1.then o2) := by
  cases a with
  | named n1 =>
    cases b with
    | named n2 =>
      cases c with
      | named n3 =>
        simp only [Symbol.cmp] at h1 h2 ⊢
        cases h1
        cases h2
        rw [strCmp_then hg1 hg2]
      | bound n3 v3 =>
        simp only [Symbol.cmp] at h1 h2 ⊢
        cases h1
        cases h2
        rw [then_lt_of_ne_gt hg1]
    | bound n2 v2 =>
      cases c with
      | named n3 =>
        simp only [Symbol.cmp] at h2
        cases h2
        exact absurd rfl hg2
      | bound n3 v3 =>
        simp only [Symbol.cmp] at h1 ⊢
        cases h1
        rw [lt_then]
  | bound n1 v1 =>
    cases b with
    | named n2 =>
      simp only [Symbol.cmp] at h1
      cases h1
      exact absurd rfl hg1
    | bound n2 v2 =>
      cases c with
      | named n3 =>
        simp only [Symbol.cmp] at h2
        cases h2
        exact absurd rfl hg2
      | bound n3 v3 =>
        cases v1 with
        | nan => simp [Symbol.nanFree, F64.isNum] at ha
        | num q1 =>
        cases v2 with
        | nan => simp [Symbol.nanFree, F64.isNum] at hb
        | num q2 =>
        cases v3 with
        | nan => simp [Symbol.nanFree, F64.isNum] at hc
        | num q3 =>
        simp only [Symbol.cmp] at h1 h2 ⊢
        cases h12 : strCmp n1 n2 with
        | gt =>
          rw [h12] at h1
          cases h1
          exact absurd rfl hg1
        | lt =>
          rw [h12] at h1
          cases h1
          cases h23 : strCmp n2 n3 with
          | gt =>
            rw [h23] at h2
            cases h2
            exact absurd rfl hg2
          | lt =>
            have h13 := strCmp_then (a := n1) (b := n2) (c := n3)
              (by simp [h12]) (by simp [h23])
            rw [h12, h23] at h13
            rw [h13]
            simp [lt_then]
          | eq =>
            have h13 := strCmp_then (a := n1) (b := n2) (c := n3)
              (by simp [h12]) (by simp [h23])
            rw [h12, h23] at h13
            rw [h13]
            simp [lt_then]
        | eq =>
          rw [h12] at h1
          simp only [f64Cmp] at h1
          cases h1
          cases h23 : strCmp n2 n3 with
          | gt =>
            rw [h23] at h2
            cases h2
            exact absurd rfl hg2
          | lt =>
            rw [h23] at h2
            cases h2
            have h13 := strCmp_then (a := n1) (b := n2) (c := n3)
              (by simp [h12]) (by simp [h23])
            rw [h12, h23] at h13
            rw [h13]
            simp only [eq_then]
            rw [then_lt_of_ne_gt hg1]
          | eq =>
            rw [h23] at h2
            simp only [f64Cmp] at h2
            cases h2
            have h13 := strCmp_then (a := n1) (b := n2) (c := n3)
              (by simp [h12]) (by simp [h23])
            rw [h12, h23] at h13
            rw [h13]
            simp only [eq_then, f64Cmp]
            rw [ratCmp_then hg1 hg2]

/-- Across variants of lower rank, the derived comparison is `Less`,
whatever the payloads (NaN included). -/
theorem cmp_of_rank_lt : ∀ {a b : Expr}, a.rank < b.rank → Expr.cmp a b = some .lt := by
  intro a b h
  cases a <;> cases b <;> simp [Expr.rank] at h <;> rfl

/-- Across variants of higher rank, the derived comparison is `Greater`. -/
theorem cmp_of_rank_gt : ∀ {a b : Expr}, b.rank < a.rank → Expr.cmp a b = some .gt := by
  intro a b h
  cases a <;> cases b <;> simp [Expr.rank] at h <;> rfl

/-- A decided non-`gt` comparison implies non-decreasing variant rank. -/
theorem rank_le_of_cmp_ne_gt {a b : Expr} {o : Ordering}
    (h : Expr.cmp a b = some o) (hg : o ≠ .gt) : a.rank ≤ b.rank := by
  by_contra hlt
  push_neg at hlt
  rw [cmp_of_rank_gt hlt] at h
  cases h
  exact hg rfl

mutual

/-- Swapping the arguments of the derived `Expr` comparison swaps the
verdict; an undecided comparison stays undecided.  This holds for every
expression, NaN included. -/
theorem cmp_swap : (a b : Expr) → Expr.cmp b a = (Expr.cmp a b).map Ordering.swap
  | .scalar x, .scalar y => f64Cmp_swap x y
  | .scalar _, .symbol _ => rfl
  | .scalar _, .pauli _ => rfl
  | .scalar _, .sum _ => rfl
  | .scalar _, .product _ => rfl
  | .symbol _, .scalar _ => rfl
  | .symbol s, .symbol t => symbolCmp_swap s t
  | .symbol _, .pauli _ => rfl
  | .symbol _, .sum _ => rfl
  | .symbol _, .product _ => rfl
  | .pauli _, .scalar _ => rfl
  | .pauli _, .symbol _ => rfl
  | .pauli p, .pauli q => by
    simp only [Expr.cmp, Option.map_some']
    exact congrArg some (pauliCmp_swap p q)
  | .pauli _, .sum _ => rfl
  | .pauli _, .product _ => rfl
  | .sum _, .scalar _ => rfl
  | .sum _, .symbol _ => rfl
  | .sum _, .pauli _ => rfl
  | .sum as, .sum bs => by
    simp only [Expr.cmp]
    exact cmpList_swap as bs
  | .sum _, .product _ => rfl
  | .product _, .scalar _ => rfl
  | .product _, .symbol _ => rfl
  | .product _, .pauli _ => rfl
  | .product _, .sum _ => rfl
  | .product as, .product bs => by
    simp only [Expr.cmp]
    exact cmpList_swap as bs

/-- List version of `cmp_swap`. -/
theorem cmpList_swap : (as bs : List Expr) →
    Expr.cmpList bs as = (Expr.cmpList as bs).map Ordering.swap
  | [], [] => rfl
  | [], _ :: _ => rfl
  | _ :: _, [] => rfl
  | a :: as, b :: bs => by
    have hsw := cmp_swap a b
    cases h : Expr.cmp a b with
    | none =>
      rw [h] at hsw
      simp only [Expr.cmpList, hsw, h]
      rfl
    | some o =>
      rw [h] at hsw
      cases o with
      | lt => simp only [Expr.cmpList, hsw, h]; rfl
      | gt => simp only [Expr.cmpList, hsw, h]; rfl
      | eq =>
        simp only [Expr.cmpList, hsw, h, Option.map_some']
        have : Ordering.swap .eq = .eq := rfl
        rw [this]
        exact cmpList_swap as bs

end

mutual

/-- The derived `Expr` comparison is decided on NaN-free expressions. -/
theorem cmp_isSome : (a b : Expr) → a.nanFree = true → b.nanFree = true →
    (Expr.cmp a b).isSome = true
  | .scalar x, .scalar y, ha, hb => by
    cases x <;> cases y <;> simp_all [Expr.nanFree, F64.isNum, Expr.cmp, f64Cmp]
  | .scalar _, .symbol _, _, _ => rfl
  | .scalar _, .pauli _, _, _ => rfl
  | .scalar _, .sum _, _, _ => rfl
  | .scalar _, .product _, _, _ => rfl
  | .symbol _, .scalar _, _, _ => rfl
  | .symbol s, .symbol t, ha, hb => by
    simp only [Expr.cmp]
    exact symbolCmp_isSome (by simpa [Expr.nanFree] using ha)
      (by simpa [Expr.nanFree] using hb)
  | .symbol _, .pauli _, _, _ => rfl
  | .symbol _, .sum _, _, _ => rfl
  | .symbol _, .product _, _, _ => rfl
  | .pauli _, .scalar _, _, _ => rfl
  | .pauli _, .symbol _, _, _ => rfl
  | .pauli _, .pauli _, _, _ => rfl
  | .pauli _, .sum _, _, _ => rfl
  | .pauli _, .product _, _, _ => rfl
  | .sum _, .scalar _, _, _ => rfl
  | .sum _, .symbol _, _, _ => rfl
  | .sum _, .pauli _, _, _ => rfl
  | .sum as, .sum bs, ha, hb => by
    simp only [Expr.cmp]
    exact cmpList_isSome as bs (by simpa [Expr.nanFree] using ha)
      (by simpa [Expr.nanFree] using hb)
  | .sum _, .product _, _, _ => rfl
  | .product _, .scalar _, _, _ => rfl
  | .product _, .symbol _, _, _ => rfl
  | .product _, .pauli _, _, _ => rfl
  | .product _, .sum _, _, _ => rfl
  | .product as, .product bs, ha, hb => by
    simp only [Expr.cmp]
    exact cmpList_isSome as bs (by simpa [Expr.nanFree] using ha)
      (by simpa [Expr.nanFree] using hb)

/-- List version of `cmp_isSome`. -/
theorem cmpList_isSome : (as bs : List Expr) → Expr.nanFreeList as = true →
    Expr.nanFreeList bs = true → (Expr.cmpList as bs).isSome = true
  | [], [], _, _ => rfl
  | [], _ :: _, _, _ => rfl
  | _ :: _, [], _, _ => rfl
  | a :: as, b :: bs, ha, hb => by
    simp only [Expr.nanFreeList, Bool.and_eq_true] at ha hb
    simp only [Expr.cmpList]
    cases h : Expr.cmp a b with
    | none =>
      have hs := cmp_isSome a b ha.1 hb.1
      rw [h] at hs
      cases hs
    | some o => cases o <;> simp [cmpList_isSome as bs ha.2 hb.2]

end

mutual

/-- Non-`gt` decided verdicts of the derived `Expr` comparison compose via
`Ordering.then` on NaN-free expressions: the comparison behaves as a total
preorder there. -/
theorem cmp_then : (a b c : Expr) → a.nanFree = true → b.nanFree = true →
    c.nanFree = true → ∀ o1 o2 : Ordering, Expr.cmp a b = some o1 →
    Expr.cmp b c = some o2 → o1 ≠ .gt → o2 ≠ .gt →
    Expr.cmp a c = some (o1.then o2)
  | a, b, c => fun ha hb hc o1 o2 h1 h2 hg1 hg2 => by
    rcases Nat.lt_trichotomy a.rank b.rank with hab | hab | hab
    · rw [cmp_of_rank_lt hab] at h1
      cases h1
      have hbc := rank_le_of_cmp_ne_gt h2 hg2
      have hac : a.rank < c.rank := lt_of_lt_of_le hab hbc
      rw [cmp_of_rank_lt hac]
      rfl
    · rcases Nat.lt_trichotomy b.rank c.rank with hbc | hbc | hbc
      · rw [cmp_of_rank_lt hbc] at h2
        cases h2
        have hac : a.rank < c.rank := hab ▸ hbc
        rw [cmp_of_rank_lt hac, then_lt_of_ne_gt hg1]
      · -- all three ranks are equal: same constructor everywhere
        cases a with
        | scalar x =>
          cases b with
          | symbol _ => simp [Expr.rank] at hab
          | pauli _ => simp [Expr.rank] at hab
          | sum _ => simp [Expr.rank] at hab
          | product _ => simp [Expr.rank] at hab
          | scalar y =>
            cases c with
            | symbol _ => simp [Expr.rank] at hbc
            | pauli _ => simp [Expr.rank] at hbc
            | sum _ => simp [Expr.rank] at hbc
            | product _ => simp [Expr.rank] at hbc
            | scalar z =>
              cases x with
              | nan => simp [Expr.nanFree, F64.isNum] at ha
              | num q1 =>
              cases y with
              | nan => simp [Expr.nanFree, F64.isNum] at hb
              | num q2 =>
              cases z with
              | nan => simp [Expr.nanFree, F64.isNum] at hc
              | num q3 =>
              simp only [Expr.cmp, f64Cmp] at h1 h2 ⊢
              cases h1
              cases h2
              rw [ratCmp_then hg1 hg2]
        | symbol s =>
          cases b with
          | scalar _ => simp [Expr.rank] at hab
          | pauli _ => simp [Expr.rank] at hab
          | sum _ => simp [Expr.rank] at hab
          | product _ => simp [Expr.rank] at hab
          | symbol t =>
            cases c with
            | scalar _ => simp [Expr.rank] at hbc
            | pauli _ => simp [Expr.rank] at hbc
            | sum _ => simp [Expr.rank] at hbc
            | product _ => simp [Expr.rank] at hbc
            | symbol u =>
              simp only [Expr.cmp] at h1 h2 ⊢
              exact symbolCmp_then (by simpa [Expr.nanFree] using ha)
                (by simpa [Expr.nanFree] using hb)
                (by simpa [Expr.nanFree] using hc) h1 h2 hg1 hg2
        | pauli p =>
          cases b with
          | scalar _ => simp [Expr.rank] at hab
          | symbol _ => simp [Expr.rank] at hab
          | sum _ => simp [Expr.rank] at hab
          | product _ => simp [Expr.rank] at hab
          | pauli q =>
            cases c with
            | scalar _ => simp [Expr.rank] at hbc
            | symbol _ => simp [Expr.rank] at hbc
            | sum _ => simp [Expr.rank] at hbc
            | product _ => simp [Expr.rank] at hbc
            | pauli r =>
              simp only [Expr.cmp] at h1 h2 ⊢
              cases h1
              cases h2
              rw [pauliCmp_then hg1 hg2]
        | sum as =>
          cases b with
          | scalar _ => simp [Expr.rank] at hab
          | symbol _ => simp [Expr.rank] at hab
          | pauli _ => simp [Expr.rank] at hab
          | product _ => simp [Expr.rank] at hab
          | sum bs =>
            cases c with
            | scalar _ => simp [Expr.rank] at hbc
            | symbol _ => simp [Expr.rank] at hbc
            | pauli _ => simp [Expr.rank] at hbc
            | product _ => simp [Expr.rank] at hbc
            | sum cs =>
              simp only [Expr.cmp] at h1 h2 ⊢
              exact cmpList_then as bs cs (by simpa [Expr.nanFree] using ha)
                (by simpa [Expr.nanFree] using hb)
                (by simpa [Expr.nanFree] using hc) o1 o2 h1 h2 hg1 hg2
        | product as =>
          cases b with
          | scalar _ => simp [Expr.rank] at hab
          | symbol _ => simp [Expr.rank] at hab
          | pauli _ => simp [Expr.rank] at hab
          | sum _ => simp [Expr.rank] at hab
          | product bs =>
            cases c with
            | scalar _ => simp [Expr.rank] at hbc
            | symbol _ => simp [Expr.rank] at hbc
            | pauli _ => simp [Expr.rank] at hbc
            | sum _ => simp [Expr.rank] at hbc
            | product cs =>
              simp only [Expr.cmp] at h1 h2 ⊢
              exact cmpList_then as bs cs (by simpa [Expr.nanFree] using ha)
                (by simpa [Expr.nanFree] using hb)
                (by simpa [Expr.nanFree] using hc) o1 o2 h1 h2 hg1 hg2
      · rw [cmp_of_rank_gt hbc] at h2
        cases h2
        exact absurd rfl hg2
    · rw [cmp_of_rank_gt hab] at h1
      cases h1
      exact absurd rfl hg1

/-- List version of `cmp_then`. -/
theorem cmpList_then : (as bs cs : List Expr) → Expr.nanFreeList as = true →
    Expr.nanFreeList bs = true → Expr.nanFreeList cs = true →
    ∀ o1 o2 : Ordering, Expr.cmpList as bs = some o1 →
    Expr.cmpList bs cs = some o2 → o1 ≠ .gt → o2 ≠ .gt →
    Expr.cmpList as cs = some (o1.then o2)
  | [], [], [], _, _, _, o1, o2, h1, h2, _, _ => by
    cases h1
    cases h2
    rfl
  | [], [], _ :: _, _, _, _, o1, o2, h1, h2, _, _ => by
    cases h1
    cases h2
    rfl
  | [], _ :: _, [], _, _, _, o1, o2, h1, h2, _, hg2 => by
    cases h2
    exact absurd rfl hg2
  | [], _ :: _, _ :: _, _, _, _, o1, o2, h1, h2, _, _ => by
    cases h1
    rfl
  | _ :: _, [], _, _, _, _, o1, o2, h1, h2, hg1, _ => by
    cases h1
    exact absurd rfl hg1
  | _ :: _, _ :: _, [], _, _, _, o1, o2, h1, h2, _, hg2 => by
    cases h2
    exact absurd rfl hg2
  | a :: as, b :: bs, c :: cs, ha, hb, hc, o1, o2, h1, h2, hg1, hg2 => by
    simp only [Expr.nanFreeList, Bool.and_eq_true] at ha hb hc
    simp only [Expr.cmpList] at h1 h2 ⊢
    cases hab : Expr.cmp a b with
    | none =>
      rw [hab] at h1
      cases h1
    | some oab =>
      rw [hab] at h1
      cases hbc : Expr.cmp b c with
      | none =>
        rw [hbc] at h2
        cases h2
      | some obc =>
        rw [hbc] at h2
        cases oab with
        | gt =>
          simp only [] at h1
          cases h1
          exact absurd rfl hg1
        | lt =>
          cases h1
          cases obc with
          | gt =>
            cases h2
            exact absurd rfl hg2
          | lt =>
            have hac := cmp_then a b c ha.1 hb.1 hc.1 .lt .lt hab hbc
              (by intro hx; cases hx) (by intro hx; cases hx)
            rw [hac]
            rfl
          | eq =>
            have hac := cmp_then a b c ha.1 hb.1 hc.1 .lt .eq hab hbc
              (by intro hx; cases hx) (by intro hx; cases hx)
            rw [hac]
            rfl
        | eq =>
          cases obc with
          | gt =>
            cases h2
            exact absurd rfl hg2
          | lt =>
            cases h2
            have hac := cmp_then a b c ha.1 hb.1 hc.1 .eq .lt hab hbc
              (by intro hx; cases hx) (by intro hx; cases hx)
            rw [hac]
            simp only [eq_then]
            rw [then_lt_of_ne_gt hg1]
          | eq =>
            have hac := cmp_then a b c ha.1 hb.1 hc.1 .eq .eq hab hbc
              (by intro hx; cases hx) (by intro hx; cases hx)
            rw [hac]
            simp only [eq_then]
            exact cmpList_then as bs cs ha.2 hb.2 hc.2 o1 o2 h1 h2 hg1 hg2

end

/-- An `Expr` is a `Sum` iff its rank is 3. -/
theorem isSum_iff_rank (e : Expr) : e.isSum = true ↔ e.rank = 3 := by
  cases e <;> simp [Expr.isSum, Expr.rank]

/-- An `Expr` is a `Product` iff its rank is 4. -/
theorem isProduct_iff_rank (e : Expr) : e.isProduct = true ↔ e.rank = 4 := by
  cases e <;> simp [Expr.isProduct, Expr.rank]

/-- Flattening preserves the top constructor. -/
theorem rank_flatten (e : Expr) : (Expr.flatten e).rank = e.rank := by
  cases e <;> rfl

/-- Flattening does nothing on a leaf. -/
theorem flatten_of_isLeaf {e : Expr} (h : e.isLeaf = true) : Expr.flatten e = e := by
  cases e <;> simp_all [Expr.isLeaf] <;> rfl

/-- Splicing a non-`Sum` keeps it as a singleton. -/
theorem spliceSum_of_not_sum {t : Expr} (h : t.isSum = false) :
    Expr.spliceSum t = [t] := by
  cases t <;> simp_all [Expr.isSum, Expr.spliceSum]

/-- Splicing a non-`Product` keeps it as a singleton. -/
theorem spliceProd_of_not_product {t : Expr} (h : t.isProduct = false) :
    Expr.spliceProd t = [t] := by
  cases t <;> simp_all [Expr.isProduct, Expr.spliceProd]

/-- A list of flatten-fixed non-`Sum`s is a fixed point of the `Sum`
flattening loop. -/
theorem flattenSumList_of_members : (l : List Expr) →
    (∀ u ∈ l, Expr.flatten u = u ∧ u.isSum = false) → Expr.flattenSumList l = l
  | [], _ => rfl
  | t :: ts, h => by
    simp only [Expr.flattenSumList]
    rw [(h t (by simp)).1, spliceSum_of_not_sum (h t (by simp)).2,
      flattenSumList_of_members ts (fun u hu => h u (by simp [hu]))]
    rfl

/-- A list of flatten-fixed non-`Product`s is a fixed point of the
`Product` flattening loop. -/
theorem flattenProdList_of_members : (l : List Expr) →
    (∀ u ∈ l, Expr.flatten u = u ∧ u.isProduct = false) → Expr.flattenProdList l = l
  | [], _ => rfl
  | t :: ts, h => by
    simp only [Expr.flattenProdList]
    rw [(h t (by simp)).1, spliceProd_of_not_product (h t (by simp)).2,
      flattenProdList_of_members ts (fun u hu => h u (by simp [hu]))]
    rfl

mutual

/-- Flattening is idempotent (as a function, on every expression). -/
theorem flatten_flatten : (e : Expr) → Expr.flatten (Expr.flatten e) = Expr.flatten e
  | .scalar _ => rfl
  | .symbol _ => rfl
  | .pauli _ => rfl
  | .sum ts => by
    simp only [Expr.flatten]
    exact congrArg Expr.sum
      (flattenSumList_of_members _ (flattenSumList_members ts))
  | .product fs => by
    simp only [Expr.flatten]
    exact congrArg Expr.product
      (flattenProdList_of_members _ (flattenProdList_members fs))

/-- Every element of a flattened `Sum` term list is flatten-fixed and not
itself a `Sum`. -/
theorem flattenSumList_members : (l : List Expr) →
    ∀ u ∈ Expr.flattenSumList l, Expr.flatten u = u ∧ u.isSum = false
  | [] => by simp [Expr.flattenSumList]
  | t :: ts => by
    intro u hu
    simp only [Expr.flattenSumList, List.mem_append] at hu
    rcases hu with hu | hu
    · cases hft : Expr.flatten t with
      | sum inner =>
        rw [hft] at hu
        simp only [Expr.spliceSum] at hu
        cases t with
        | sum l2 =>
          have : Expr.flattenSumList l2 = inner := by
            simpa [Expr.flatten] using hft
          exact flattenSumList_members l2 u (by rw [this]; exact hu)
        | scalar v => cases hft
        | symbol s => cases hft
        | pauli p => cases hft
        | product fs => cases hft
      | scalar v =>
        rw [hft] at hu
        simp only [Expr.spliceSum, List.mem_singleton] at hu
        cases hu
        refine ⟨?_, rfl⟩
        rw [← hft]
        exact flatten_flatten t
      | symbol s =>
        rw [hft] at hu
        simp only [Expr.spliceSum, List.mem_singleton] at hu
        cases hu
        refine ⟨?_, rfl⟩
        rw [← hft]
        exact flatten_flatten t
      | pauli p =>
        rw [hft] at hu
        simp only [Expr.spliceSum, List.mem_singleton] at hu
        cases hu
        refine ⟨?_, rfl⟩
        rw [← hft]
        exact flatten_flatten t
      | product fs =>
        rw [hft] at hu
        simp only [Expr.spliceSum, List.mem_singleton] at hu
        cases hu
        refine ⟨?_, rfl⟩
        rw [← hft]
        exact flatten_flatten t
    · exact flattenSumList_members ts u hu

/-- Every element of a flattened `Product` factor list is flatten-fixed and
not itself a `Product`. -/
theorem flattenProdList_members : (l : List Expr) →
    ∀ u ∈ Expr.flattenProdList l, Expr.flatten u = u ∧ u.isProduct = false
  | [] => by simp [Expr.flattenProdList]
  | t :: ts => by
    intro u hu
    simp only [Expr.flattenProdList, List.mem_append] at hu
    rcases hu with hu | hu
    · cases hft : Expr.flatten t with
      | product inner =>
        rw [hft] at hu
        simp only [Expr.spliceProd] at hu
        cases t with
        | product l2 =>
          have : Expr.flattenProdList l2 = inner := by
            simpa [Expr.flatten] using hft
          exact flattenProdList_members l2 u (by rw [this]; exact hu)
        | scalar v => cases hft
        | symbol s => cases hft
        | pauli p => cases hft
        | sum ts2 => cases hft
      | scalar v =>
        rw [hft] at hu
        simp only [Expr.spliceProd, List.mem_singleton] at hu
        cases hu
        refine ⟨?_, rfl⟩
        rw [← hft]
        exact flatten_flatten t
      | symbol s =>
        rw [hft] at hu
        simp only [Expr.spliceProd, List.mem_singleton] at hu
        cases hu
        refine ⟨?_, rfl⟩
        rw [← hft]
        exact flatten_flatten t
      | pauli p =>
        rw [hft] at hu
        simp only [Expr.spliceProd, List.mem_singleton] at hu
        cases hu
        refine ⟨?_, rfl⟩
        rw [← hft]
        exact flatten_flatten t
      | sum ts2 =>
        rw [hft] at hu
        simp only [Expr.spliceProd, List.mem_singleton] at hu
        cases hu
        refine ⟨?_, rfl⟩
        rw [← hft]
        exact flatten_flatten t
    · exact flattenProdList_members ts u hu

end

/-- The terms of an expression that flattens to a `Sum` are flatten-fixed
non-`Sum`s. -/
theorem flatten_eq_sum_members {e : Expr} {ts : List Expr}
    (h : Expr.flatten e = .sum ts) :
    ∀ u ∈ ts, Expr.flatten u = u ∧ u.isSum = false := by
  cases e with
  | sum l =>
    have : Expr.flattenSumList l = ts := by simpa [Expr.flatten] using h
    intro u hu
    exact flattenSumList_members l u (by rw [this]; exact hu)
  | scalar v => cases h
  | symbol s => cases h
  | pauli p => cases h
  | product fs => cases h

/-- The factors of an expression that flattens to a `Product` are
flatten-fixed non-`Product`s. -/
theorem flatten_eq_product_members {e : Expr} {fs : List Expr}
    (h : Expr.flatten e = .product fs) :
    ∀ u ∈ fs, Expr.flatten u = u ∧ u.isProduct = false := by
  cases e with
  | product l =>
    have : Expr.flattenProdList l = fs := by simpa [Expr.flatten] using h
    intro u hu
    exact flattenProdList_members l u (by rw [this]; exact hu)
  | scalar v => cases h
  | symbol s => cases h
  | pauli p => cases h
  | sum ts => cases h

/-- The `Sum` flattening loop written as a flatten-of-map, used to carry
permutations through it. -/
theorem flattenSumList_eq_flatten_map (l : List Expr) :
    Expr.flattenSumList l = (l.map fun t => Expr.spliceSum (Expr.flatten t)).flatten := by
  induction l with
  | nil => rfl
  | cons t ts ih => simp [Expr.flattenSumList, ih]

/-- A permutation of `Sum` terms yields a permutation of the flattened
term list. -/
theorem flattenSumList_perm {l1 l2 : List Expr} (h : l1.Perm l2) :
    (Expr.flattenSumList l1).Perm (Expr.flattenSumList l2) := by
  rw [flattenSumList_eq_flatten_map, flattenSumList_eq_flatten_map]
  exact (h.map _).flatten

/-- Predicate `nanFreeList` distributes over append. -/
theorem nanFreeList_append (l1 l2 : List Expr) :
    Expr.nanFreeList (l1 ++ l2) = (Expr.nanFreeList l1 && Expr.nanFreeList l2) := by
  induction l1 with
  | nil => simp [Expr.nanFreeList]
  | cons t ts ih => simp [Expr.nanFreeList, ih, Bool.and_assoc]

/-- Predicate `nanFreeList` is elementwise `nanFree`. -/
theorem nanFreeList_iff_forall (l : List Expr) :
    Expr.nanFreeList l = true ↔ ∀ u ∈ l, u.nanFree = true := by
  induction l with
  | nil => simp [Expr.nanFreeList]
  | cons t ts ih => simp [Expr.nanFreeList, ih]

mutual

/-- Flattening preserves NaN-freeness. -/
theorem nanFree_flatten : (e : Expr) → e.nanFree = true →
    (Expr.flatten e).nanFree = true
  | .scalar _, h => h
  | .symbol _, h => h
  | .pauli _, h => h
  | .sum ts, h => by
    simp only [Expr.flatten, Expr.nanFree] at h ⊢
    exact nanFreeList_flattenSumList ts h
  | .product fs, h => by
    simp only [Expr.flatten, Expr.nanFree] at h ⊢
    exact nanFreeList_flattenProdList fs h

/-- The `Sum` flattening loop preserves NaN-freeness. -/
theorem nanFreeList_flattenSumList : (l : List Expr) → Expr.nanFreeList l = true →
    Expr.nanFreeList (Expr.flattenSumList l) = true
  | [], _ => rfl
  | t :: ts, h => by
    simp only [Expr.nanFreeList, Bool.and_eq_true] at h
    simp only [Expr.flattenSumList, nanFreeList_append, Bool.and_eq_true]
    refine ⟨?_, nanFreeList_flattenSumList ts h.2⟩
    have hft := nanFree_flatten t h.1
    cases hf : Expr.flatten t with
    | sum inner =>
      rw [hf] at hft
      simpa [Expr.spliceSum, Expr.nanFree] using hft
    | scalar v =>
      rw [hf] at hft
      simpa [Expr.spliceSum, Expr.nanFreeList] using hft
    | symbol s =>
      rw [hf] at hft
      simpa [Expr.spliceSum, Expr.nanFreeList] using hft
    | pauli p =>
      rw [hf] at hft
      simpa [Expr.spliceSum, Expr.nanFreeList] using hft
    | product fs =>
      rw [hf] at hft
      simpa [Expr.spliceSum, Expr.nanFreeList] using hft

/-- The `Product` flattening loop preserves NaN-freeness. -/
theorem nanFreeList_flattenProdList : (l : List Expr) → Expr.nanFreeList l = true →
    Expr.nanFreeList (Expr.flattenProdList l) = true
  | [], _ => rfl
  | t :: ts, h => by
    simp only [Expr.nanFreeList, Bool.and_eq_true] at h
    simp only [Expr.flattenProdList, nanFreeList_append, Bool.and_eq_true]
    refine ⟨?_, nanFreeList_flattenProdList ts h.2⟩
    have hft := nanFree_flatten t h.1
    cases hf : Expr.flatten t with
    | product inner =>
      rw [hf] at hft
      simpa [Expr.spliceProd, Expr.nanFree] using hft
    | scalar v =>
      rw [hf] at hft
      simpa [Expr.spliceProd, Expr.nanFreeList] using hft
    | symbol s =>
      rw [hf] at hft
      simpa [Expr.spliceProd, Expr.nanFreeList] using hft
    | pauli p =>
      rw [hf] at hft
      simpa [Expr.spliceProd, Expr.nanFreeList] using hft
    | sum ts2 =>
      rw [hf] at hft
      simpa [Expr.spliceProd, Expr.nanFreeList] using hft

end

/-- The sort relation is total in the swap sense, on all expressions: this
is what the `unwrap_or(Equal)` fallback buys.  (An undecided comparison is
tied in both directions.) -/
theorem sortLe_total (a b : Expr) (h : Expr.sortLe a b = false) :
    Expr.sortLe b a = true := by
  simp only [Expr.sortLe, Expr.sortCmp, ne_eq, decide_not, Bool.not_eq_false',
    decide_eq_true_eq] at h
  simp only [Expr.sortLe, Expr.sortCmp, ne_eq, decide_not, Bool.not_eq_false,
    decide_eq_false_iff_not]
  rw [cmp_swap a b]
  cases hc : Expr.cmp a b with
  | none =>
    rw [hc] at h
    cases h
  | some o =>
    rw [hc] at h
    simp only [Option.getD_some] at h
    cases h
    simp [Ordering.swap]

/-- Composition `Ordering.then` of two non-`gt` verdicts is non-`gt`. -/
theorem then_ne_gt {o1 o2 : Ordering} (h1 : o1 ≠ .gt) (h2 : o2 ≠ .gt) :
    o1.then o2 ≠ .gt := by
  cases o1 <;> cases o2 <;> simp_all [Ordering.then]

/-- Function `canonical_inner` preserves the top constructor. -/
theorem rank_canonical_inner (e : Expr) :
    (Expr.canonical_inner e).rank = e.rank := by
  cases hf : Expr.flatten e with
  | sum ts =>
    rw [canonical_inner_of_sum hf]
    have := rank_flatten e
    rw [hf] at this
    simpa [Expr.rank] using this
  | product fs =>
    rw [canonical_inner_of_product hf]
    have := rank_flatten e
    rw [hf] at this
    simpa [Expr.rank] using this
  | scalar v =>
    rw [canonical_inner_of_leaf hf rfl]
    have := rank_flatten e
    rw [hf] at this
    exact this
  | symbol s =>
    rw [canonical_inner_of_leaf hf rfl]
    have := rank_flatten e
    rw [hf] at this
    exact this
  | pauli p =>
    rw [canonical_inner_of_leaf hf rfl]
    have := rank_flatten e
    rw [hf] at this
    exact this

/-- The output of `canonical_inner` is a fixed point of `flatten`. -/
theorem flatten_canonical_inner (e : Expr) :
    Expr.flatten (Expr.canonical_inner e) = Expr.canonical_inner e := by
  cases hf : Expr.flatten e with
  | sum ts =>
    rw [canonical_inner_of_sum hf]
    simp only [Expr.flatten]
    apply congrArg Expr.sum
    apply flattenSumList_of_members
    intro u hu
    have hu2 : u ∈ ts.map Expr.canonical_inner :=
      (stableSortBy_perm Expr.sortLe _).subset hu
    obtain ⟨t, ht, rfl⟩ := List.mem_map.mp hu2
    have hts := flatten_eq_sum_members hf t ht
    constructor
    · exact flatten_canonical_inner t
    · have hr : (Expr.canonical_inner t).rank = t.rank := rank_canonical_inner t
      rw [Bool.eq_false_iff]
      intro hsum
      rw [isSum_iff_rank, hr, ← isSum_iff_rank] at hsum
      rw [hts.2] at hsum
      cases hsum
  | product fs =>
    rw [canonical_inner_of_product hf]
    simp only [Expr.flatten]
    apply congrArg Expr.product
    apply flattenProdList_of_members
    intro u hu
    obtain ⟨t, ht, rfl⟩ := List.mem_map.mp hu
    have hts := flatten_eq_product_members hf t ht
    constructor
    · exact flatten_canonical_inner t
    · have hr : (Expr.canonical_inner t).rank = t.rank := rank_canonical_inner t
      rw [Bool.eq_false_iff]
      intro hprod
      rw [isProduct_iff_rank, hr, ← isProduct_iff_rank] at hprod
      rw [hts.2] at hprod
      cases hprod
  | scalar v =>
    rw [canonical_inner_of_leaf hf rfl]
    rw [← hf]
    exact flatten_flatten e
  | symbol s =>
    rw [canonical_inner_of_leaf hf rfl]
    rw [← hf]
    exact flatten_flatten e
  | pauli p =>
    rw [canonical_inner_of_leaf hf rfl]
    rw [← hf]
    exact flatten_flatten e
termination_by sizeOf e
decreasing_by
  · exact sizeOf_lt_of_mem_flatten_sum hf ht
  · exact sizeOf_lt_of_mem_flatten_prod hf ht

/-- Function `canonical_inner` preserves NaN-freeness. -/
theorem nanFree_canonical_inner (e : Expr) (he : e.nanFree = true) :
    (Expr.canonical_inner e).nanFree = true := by
  cases hf : Expr.flatten e with
  | sum ts =>
    rw [canonical_inner_of_sum hf]
    simp only [Expr.nanFree]
    rw [nanFreeList_iff_forall]
    intro u hu
    have hu2 : u ∈ ts.map Expr.canonical_inner :=
      (stableSortBy_perm Expr.sortLe _).subset hu
    obtain ⟨t, ht, rfl⟩ := List.mem_map.mp hu2
    have hnf := nanFree_flatten e he
    rw [hf] at hnf
    simp only [Expr.nanFree] at hnf
    have htn : t.nanFree = true := (nanFreeList_iff_forall ts).mp hnf t ht
    exact nanFree_canonical_inner t htn
  | product fs =>
    rw [canonical_inner_of_product hf]
    simp only [Expr.nanFree]
    rw [nanFreeList_iff_forall]
    intro u hu
    obtain ⟨t, ht, rfl⟩ := List.mem_map.mp hu
    have hnf := nanFree_flatten e he
    rw [hf] at hnf
    simp only [Expr.nanFree] at hnf
    have htn : t.nanFree = true := (nanFreeList_iff_forall fs).mp hnf t ht
    exact nanFree_canonical_inner t htn
  | scalar v =>
    rw [canonical_inner_of_leaf hf rfl]
    have hnf := nanFree_flatten e he
    rw [hf] at hnf
    exact hnf
  | symbol s =>
    rw [canonical_inner_of_leaf hf rfl]
    have hnf := nanFree_flatten e he
    rw [hf] at hnf
    exact hnf
  | pauli p =>
    rw [canonical_inner_of_leaf hf rfl]
    have hnf := nanFree_flatten e he
    rw [hf] at hnf
    exact hnf
termination_by sizeOf e
decreasing_by
  · exact sizeOf_lt_of_mem_flatten_sum hf ht
  · exact sizeOf_lt_of_mem_flatten_prod hf ht

/-- Canonicalizing a flattened expression is canonicalizing the
expression: the first step of `canonical_inner` is `flatten`, which is
idempotent. -/
theorem canonical_inner_flatten (e : Expr) :
    Expr.canonical_inner (Expr.flatten e) = Expr.canonical_inner e := by
  cases hf : Expr.flatten e with
  | sum ts =>
    have hts : Expr.flattenSumList ts = ts :=
      flattenSumList_of_members ts (flatten_eq_sum_members hf)
    have h2 : Expr.flatten (Expr.sum ts) = Expr.sum ts := by
      simp only [Expr.flatten, hts]
    rw [canonical_inner_of_sum h2, canonical_inner_of_sum hf]
  | product fs =>
    have hts : Expr.flattenProdList fs = fs :=
      flattenProdList_of_members fs (flatten_eq_product_members hf)
    have h2 : Expr.flatten (Expr.product fs) = Expr.product fs := by
      simp only [Expr.flatten, hts]
    rw [canonical_inner_of_product h2, canonical_inner_of_product hf]
  | scalar v =>
    rw [canonical_inner_of_leaf (e := Expr.scalar v) (flatten_of_isLeaf rfl) rfl,
      canonical_inner_of_leaf hf rfl]
  | symbol s =>
    rw [canonical_inner_of_leaf (e := Expr.symbol s) (flatten_of_isLeaf rfl) rfl,
      canonical_inner_of_leaf hf rfl]
  | pauli p =>
    rw [canonical_inner_of_leaf (e := Expr.pauli p) (flatten_of_isLeaf rfl) rfl,
      canonical_inner_of_leaf hf rfl]

/-- Canonicalization is idempotent as a function of the model, on every
expression. -/
theorem canonical_inner_idem (e : Expr) :
    Expr.canonical_inner (Expr.canonical_inner e) = Expr.canonical_inner e := by
  cases hf : Expr.flatten e with
  | sum ts =>
    have hc : Expr.canonical_inner e
        = .sum (stableSortBy Expr.sortLe (ts.map Expr.canonical_inner)) :=
      canonical_inner_of_sum hf
    have hffix : Expr.flatten (Expr.canonical_inner e) = Expr.canonical_inner e :=
      flatten_canonical_inner e
    rw [hc] at hffix
    rw [hc, canonical_inner_of_sum hffix]
    apply congrArg Expr.sum
    have hmap : (stableSortBy Expr.sortLe (ts.map Expr.canonical_inner)).map
        Expr.canonical_inner = stableSortBy Expr.sortLe (ts.map Expr.canonical_inner) := by
      have := List.map_congr_left (l := stableSortBy Expr.sortLe (ts.map Expr.canonical_inner))
        (f := Expr.canonical_inner) (g := fun u => u) ?_
      · simpa using this
      · intro u hu
        have hu2 : u ∈ ts.map Expr.canonical_inner :=
          (stableSortBy_perm Expr.sortLe _).subset hu
        obtain ⟨t, ht, rfl⟩ := List.mem_map.mp hu2
        exact canonical_inner_idem t
    rw [hmap]
    exact stableSortBy_of_chain' Expr.sortLe _
      (stableSortBy_chain' Expr.sortLe sortLe_total _)
  | product fs =>
    have hc : Expr.canonical_inner e = .product (fs.map Expr.canonical_inner) :=
      canonical_inner_of_product hf
    have hffix : Expr.flatten (Expr.canonical_inner e) = Expr.canonical_inner e :=
      flatten_canonical_inner e
    rw [hc] at hffix
    rw [hc, canonical_inner_of_product hffix]
    apply congrArg Expr.product
    have := List.map_congr_left (l := fs.map Expr.canonical_inner)
      (f := Expr.canonical_inner) (g := fun u => u) ?_
    · simpa using this
    · intro u hu
      obtain ⟨t, ht, rfl⟩ := List.mem_map.mp hu
      exact canonical_inner_idem t
  | scalar v =>
    have hc : Expr.canonical_inner e = .scalar v := canonical_inner_of_leaf hf rfl
    have hffix := flatten_canonical_inner e
    rw [hc] at hffix
    rw [hc, canonical_inner_of_leaf hffix rfl]
  | symbol s =>
    have hc : Expr.canonical_inner e = .symbol s := canonical_inner_of_leaf hf rfl
    have hffix := flatten_canonical_inner e
    rw [hc] at hffix
    rw [hc, canonical_inner_of_leaf hffix rfl]
  | pauli p =>
    have hc : Expr.canonical_inner e = .pauli p := canonical_inner_of_leaf hf rfl
    have hffix := flatten_canonical_inner e
    rw [hc] at hffix
    rw [hc, canonical_inner_of_leaf hffix rfl]
termination_by sizeOf e
decreasing_by
  · exact sizeOf_lt_of_mem_flatten_sum hf ht
  · exact sizeOf_lt_of_mem_flatten_prod hf ht

/-- Equality `Symbol.rustEq` is reflexive on NaN-free symbols. -/
theorem symbolRustEq_refl {s : Symbol} (h : s.nanFree = true) :
    Symbol.rustEq s s = true := by
  cases s with
  | named n => simp [Symbol.rustEq]
  | bound n v =>
    cases v with
    | nan => simp [Symbol.nanFree, F64.isNum] at h
    | num q => simp [Symbol.rustEq, f64Eq]

mutual

/-- The program's `==` (derived `PartialEq`) is reflexive on NaN-free
expressions. -/
theorem rustEq_refl : (e : Expr) → e.nanFree = true → Expr.rustEq e e = true
  | .scalar v, h => by
    cases v with
    | nan => simp [Expr.nanFree, F64.isNum] at h
    | num q => simp [Expr.rustEq, f64Eq]
  | .symbol s, h => by
    simp only [Expr.rustEq]
    exact symbolRustEq_refl (by simpa [Expr.nanFree] using h)
  | .pauli p, _ => by simp [Expr.rustEq]
  | .sum ts, h => by
    simp only [Expr.rustEq]
    exact rustEqList_refl ts (by simpa [Expr.nanFree] using h)
  | .product fs, h => by
    simp only [Expr.rustEq]
    exact rustEqList_refl fs (by simpa [Expr.nanFree] using h)

/-- List version of `rustEq_refl`. -/
theorem rustEqList_refl : (l : List Expr) → Expr.nanFreeList l = true →
    Expr.rustEqList l l = true
  | [], _ => rfl
  | t :: ts, h => by
    simp only [Expr.nanFreeList, Bool.and_eq_true] at h
    simp only [Expr.rustEqList, Bool.and_eq_true]
    exact ⟨rustEq_refl t h.1, rustEqList_refl ts h.2⟩

end

/-- Unfold `Expr.sortLe` into a statement about the comparator. -/
theorem sortLe_iff {a b : Expr} : Expr.sortLe a b = true ↔ Expr.sortCmp a b ≠ .gt := by
  simp [Expr.sortLe]

/-- The sort relation is transitive on NaN-free expressions. -/
theorem sortLe_trans {a b c : Expr} (ha : a.nanFree = true) (hb : b.nanFree = true)
    (hc : c.nanFree = true) (h1 : Expr.sortLe a b = true)
    (h2 : Expr.sortLe b c = true) : Expr.sortLe a c = true := by
  rw [sortLe_iff] at h1 h2 ⊢
  obtain ⟨o1, ho1⟩ := Option.isSome_iff_exists.mp (cmp_isSome a b ha hb)
  obtain ⟨o2, ho2⟩ := Option.isSome_iff_exists.mp (cmp_isSome b c hb hc)
  have hg1 : o1 ≠ .gt := by
    rw [Expr.sortCmp, ho1] at h1
    simpa using h1
  have hg2 : o2 ≠ .gt := by
    rw [Expr.sortCmp, ho2] at h2
    simpa using h2
  have h3 := cmp_then a b c ha hb hc o1 o2 ho1 ho2 hg1 hg2
  rw [Expr.sortCmp, h3]
  simpa using then_ne_gt hg1 hg2

/-- The sort relation is antisymmetric on NaN-free expressions whose tie
(`Equal` verdict) implies equality. -/
theorem sortLe_antisym {a b : Expr} (ha : a.nanFree = true) (hb : b.nanFree = true)
    (hstrict : Expr.cmp a b = some .eq → a = b) (h1 : Expr.sortLe a b = true)
    (h2 : Expr.sortLe b a = true) : a = b := by
  rw [sortLe_iff] at h1 h2
  obtain ⟨o, ho⟩ := Option.isSome_iff_exists.mp (cmp_isSome a b ha hb)
  have hswap := cmp_swap a b
  rw [ho] at hswap
  have hg1 : o ≠ .gt := by
    rw [Expr.sortCmp, ho] at h1
    simpa using h1
  have hg2 : o.swap ≠ .gt := by
    rw [Expr.sortCmp, hswap] at h2
    simpa using h2
  have heq : o = .eq := by
    cases o <;> simp_all [Ordering.swap]
  exact hstrict (heq ▸ ho)

/-- The sort relation respects the variant rank. -/
theorem rank_le_of_sortLe {a b : Expr} (h : Expr.sortLe a b = true) :
    a.rank ≤ b.rank := by
  rw [sortLe_iff] at h
  by_contra hlt
  push_neg at hlt
  rw [Expr.sortCmp, cmp_of_rank_gt hlt] at h
  simp at h

/-- Rust `Result::map` on a success value. -/
theorem except_map_ok {α β : Type} (f : α → β) (a : α) :
    (Except.ok a : Except String α).map f = .ok (f a) := rfl

/-- Rust `Result::map` on an error value. -/
theorem except_map_error {α β : Type} (f : α → β) (e : String) :
    (Except.error e : Except String α).map f = .error e := rfl

/-- On a valid character the parser succeeds with the evident operator. -/
theorem tryFromChar_ok_of_valid {c : Char} (h : isPauliChar c = true) :
    Pauli.tryFromChar c = .ok (forcePauli c) := by
  simp only [isPauliChar, Bool.or_eq_true, beq_iff_eq] at h
  rcases h with ((h | h) | h) | h <;> subst h <;> rfl

/-- On an invalid character the parser fails with the message naming it. -/
theorem tryFromChar_error_of_invalid {c : Char} (h : isPauliChar c = false) :
    Pauli.tryFromChar c = .error (pauliErrMsg c) := by
  simp only [isPauliChar, Bool.or_eq_false_iff] at h
  obtain ⟨⟨⟨h1, h2⟩, h3⟩, h4⟩ := h
  rw [beq_eq_false_iff_ne] at h1 h2 h3 h4
  simp [Pauli.tryFromChar, h1, h2, h3, h4]

/-- Collecting an all-valid enumerated character list succeeds and keeps
each character's position as its index. -/
theorem collect_enumFrom_ok : (l : List Char) → (n : Nat) →
    (∀ c ∈ l, isPauliChar c = true) →
    collectResults ((List.enumFrom n l).map fun ic =>
        (Pauli.tryFromChar ic.2).map fun p => (ic.1, p))
      = .ok ((List.enumFrom n l).map fun ic => (ic.1, forcePauli ic.2))
  | [], _, _ => rfl
  | c :: cs, n, h => by
    rw [List.enumFrom_cons]
    simp only [List.map_cons]
    rw [tryFromChar_ok_of_valid (h c (by simp)), except_map_ok]
    simp only [collectResults]
    rw [collect_enumFrom_ok cs (n + 1) (fun x hx => h x (by simp [hx])), except_map_ok]

/-- Either every character is valid or the collection fails. -/
theorem collect_valid_or_error : (l : List Char) → (n : Nat) →
    (∀ c ∈ l, isPauliChar c = true)
    ∨ (∃ e, collectResults ((List.enumFrom n l).map fun ic =>
        (Pauli.tryFromChar ic.2).map fun p => (ic.1, p)) = .error e)
  | [], _ => Or.inl (by simp)
  | c :: cs, n => by
    by_cases hc : isPauliChar c = true
    · rcases collect_valid_or_error cs (n + 1) with hall | ⟨e, he⟩
      · left
        intro x hx
        rcases List.mem_cons.mp hx with hx | hx
        · cases hx
          exact hc
        · exact hall x hx
      · right
        refine ⟨e, ?_⟩
        rw [List.enumFrom_cons]
        simp only [List.map_cons]
        rw [tryFromChar_ok_of_valid hc, except_map_ok]
        simp only [collectResults]
        rw [he, except_map_error]
    · right
      refine ⟨pauliErrMsg c, ?_⟩
      rw [List.enumFrom_cons]
      simp only [List.map_cons]
      rw [tryFromChar_error_of_invalid (by simpa using hc), except_map_error]
      simp only [collectResults]

/-- A failed collection names an invalid character of the input. -/
theorem collect_error_mem : (l : List Char) → (n : Nat) → (e : String) →
    collectResults ((List.enumFrom n l).map fun ic =>
        (Pauli.tryFromChar ic.2).map fun p => (ic.1, p)) = .error e →
    ∃ c ∈ l, isPauliChar c = false ∧ e = pauliErrMsg c
  | [], _, _, h => by cases h
  | c :: cs, n, e, h => by
    rw [List.enumFrom_cons] at h
    simp only [List.map_cons] at h
    by_cases hc : isPauliChar c = true
    · rw [tryFromChar_ok_of_valid hc, except_map_ok] at h
      simp only [collectResults] at h
      cases hrest : collectResults ((List.enumFrom (n + 1) cs).map fun ic =>
          (Pauli.tryFromChar ic.2).map fun p => (ic.1, p)) with
      | ok v =>
        rw [hrest, except_map_ok] at h
        cases h
      | error e2 =>
        rw [hrest, except_map_error] at h
        injection h with he
        subst he
        obtain ⟨c2, hmem, hinv, hmsg⟩ := collect_error_mem cs (n + 1) _ hrest
        exact ⟨c2, by simp [hmem], hinv, hmsg⟩
    · rw [tryFromChar_error_of_invalid (by simpa using hc), except_map_error] at h
      simp only [collectResults] at h
      injection h with he
      subst he
      exact ⟨c, by simp, by simpa using hc, rfl⟩

/-- Claim C1 (counterexample): the claim as stated is false.  The two
Pauli strings `X0` and `Y0` have the same index sequence, so the sort
comparator reports them order-equal and the stable sort keeps them in
input order: the one-transposition permutation of the two-term sum
canonicalizes to a different expression. -/
theorem c1_counterexample :
    ([Expr.pauli ⟨[(0, Pauli.x)]⟩, Expr.pauli ⟨[(0, Pauli.y)]⟩] : List Expr).Perm
      [Expr.pauli ⟨[(0, Pauli.y)]⟩, Expr.pauli ⟨[(0, Pauli.x)]⟩]
    ∧ Expr.canonical_inner
        (Expr.sum [Expr.pauli ⟨[(0, Pauli.x)]⟩, Expr.pauli ⟨[(0, Pauli.y)]⟩])
      ≠ Expr.canonical_inner
        (Expr.sum [Expr.pauli ⟨[(0, Pauli.y)]⟩, Expr.pauli ⟨[(0, Pauli.x)]⟩]) := by
  constructor
  · decide
  · have hx : Expr.canonical_inner (Expr.pauli ⟨[(0, Pauli.x)]⟩)
        = Expr.pauli ⟨[(0, Pauli.x)]⟩ :=
      canonical_inner_of_leaf (flatten_of_isLeaf rfl) rfl
    have hy : Expr.canonical_inner (Expr.pauli ⟨[(0, Pauli.y)]⟩)
        = Expr.pauli ⟨[(0, Pauli.y)]⟩ :=
      canonical_inner_of_leaf (flatten_of_isLeaf rfl) rfl
    have hfa : Expr.flatten
        (Expr.sum [Expr.pauli ⟨[(0, Pauli.x)]⟩, Expr.pauli ⟨[(0, Pauli.y)]⟩])
        = Expr.sum [Expr.pauli ⟨[(0, Pauli.x)]⟩, Expr.pauli ⟨[(0, Pauli.y)]⟩] := by
      decide
    have hfb : Expr.flatten
        (Expr.sum [Expr.pauli ⟨[(0, Pauli.y)]⟩, Expr.pauli ⟨[(0, Pauli.x)]⟩])
        = Expr.sum [Expr.pauli ⟨[(0, Pauli.y)]⟩, Expr.pauli ⟨[(0, Pauli.x)]⟩] := by
      decide
    rw [canonical_inner_of_sum hfa, canonical_inner_of_sum hfb]
    simp only [List.map_cons, List.map_nil, hx, hy]
    decide

/-- Claim C1 (amended): two sums whose term lists are permutations of one
another have identical canonical forms, provided no term contains a NaN
and no two distinct canonicalized terms compare as order-equal (in
particular, no two Pauli terms share an index sequence while differing in
operators). -/
theorem c1_theorem (ts us : List Expr) (hperm : ts.Perm us)
    (hnf : ∀ t ∈ ts, t.nanFree = true)
    (hstrict : ∀ a ∈ canonicalSumTerms ts, ∀ b ∈ canonicalSumTerms ts,
      Expr.cmp a b = some .eq → a = b) :
    Expr.canonical_inner (Expr.sum ts) = Expr.canonical_inner (Expr.sum us) := by
  have hts : Expr.flatten (Expr.sum ts) = Expr.sum (Expr.flattenSumList ts) := by
    simp [Expr.flatten]
  have hus : Expr.flatten (Expr.sum us) = Expr.sum (Expr.flattenSumList us) := by
    simp [Expr.flatten]
  rw [canonical_inner_of_sum hts, canonical_inner_of_sum hus]
  apply congrArg Expr.sum
  have hpermA : (canonicalSumTerms ts).Perm (canonicalSumTerms us) :=
    (flattenSumList_perm hperm).map _
  have hnfA : ∀ a ∈ canonicalSumTerms ts, a.nanFree = true := by
    intro a ha
    obtain ⟨t, ht, rfl⟩ := List.mem_map.mp ha
    have h1 : Expr.nanFreeList ts = true := (nanFreeList_iff_forall ts).mpr hnf
    have h2 := nanFreeList_flattenSumList ts h1
    exact nanFree_canonical_inner t ((nanFreeList_iff_forall _).mp h2 t ht)
  have hnfB : ∀ a ∈ canonicalSumTerms us, a.nanFree = true := fun a ha =>
    hnfA a (hpermA.symm.subset ha)
  have hstrictB : ∀ a ∈ canonicalSumTerms us, ∀ b ∈ canonicalSumTerms us,
      Expr.cmp a b = some .eq → a = b := fun a ha b hb =>
    hstrict a (hpermA.symm.subset ha) b (hpermA.symm.subset hb)
  have hpermS : (stableSortBy Expr.sortLe (canonicalSumTerms ts)).Perm
      (stableSortBy Expr.sortLe (canonicalSumTerms us)) :=
    (stableSortBy_perm _ _).trans (hpermA.trans (stableSortBy_perm _ _).symm)
  refine eq_of_perm_of_pairwise (R := fun a b => Expr.sortLe a b = true)
    _ _ hpermS ?_ ?_ ?_
  · intro a ha b hb h1 h2
    have haA := (stableSortBy_perm Expr.sortLe _).subset ha
    have hbA := (stableSortBy_perm Expr.sortLe _).subset hb
    exact sortLe_antisym (hnfA a haA) (hnfA b hbA) (hstrict a haA b hbA) h1 h2
  · apply pairwise_of_chain'_trans
    · intro a ha b hb c hc h1 h2
      exact sortLe_trans (hnfA a ((stableSortBy_perm Expr.sortLe _).subset ha))
        (hnfA b ((stableSortBy_perm Expr.sortLe _).subset hb))
        (hnfA c ((stableSortBy_perm Expr.sortLe _).subset hc)) h1 h2
    · exact stableSortBy_chain' _ sortLe_total _
  · apply pairwise_of_chain'_trans
    · intro a ha b hb c hc h1 h2
      exact sortLe_trans (hnfB a ((stableSortBy_perm Expr.sortLe _).subset ha))
        (hnfB b ((stableSortBy_perm Expr.sortLe _).subset hb))
        (hnfB c ((stableSortBy_perm Expr.sortLe _).subset hc)) h1 h2
    · exact stableSortBy_chain' _ sortLe_total _

/-- Claim C1 (witness): the amended theorem applied to the two-term scalar
sum `1 + 2` and its transposition. -/
theorem c1_witness :
    Expr.canonical_inner (Expr.sum [Expr.scalar (.num 1), Expr.scalar (.num 2)])
      = Expr.canonical_inner (Expr.sum [Expr.scalar (.num 2), Expr.scalar (.num 1)]) := by
  apply c1_theorem
  · decide
  · decide
  · have h1 : Expr.canonical_inner (Expr.scalar (.num 1)) = Expr.scalar (.num 1) :=
      canonical_inner_of_leaf (flatten_of_isLeaf rfl) rfl
    have h2 : Expr.canonical_inner (Expr.scalar (.num 2)) = Expr.scalar (.num 2) :=
      canonical_inner_of_leaf (flatten_of_isLeaf rfl) rfl
    have hterm : canonicalSumTerms [Expr.scalar (.num 1), Expr.scalar (.num 2)]
        = [Expr.scalar (.num 1), Expr.scalar (.num 2)] := by
      have hf : Expr.flattenSumList [Expr.scalar (.num 1), Expr.scalar (.num 2)]
          = [Expr.scalar (.num 1), Expr.scalar (.num 2)] := by decide
      simp [canonicalSumTerms, hf, h1, h2]
    rw [hterm]
    decide

/-- Flattening preserves `isProduct`. -/
theorem isProduct_flatten (e : Expr) : (Expr.flatten e).isProduct = e.isProduct := by
  cases e <;> rfl

/-- Claim C2 (counterexample): the "in particular" clause of the claim is
false.  With `a = Product[1]` and `b = Product[1, 1]` the canonical forms
of `a` and `b` differ, yet `product([a, b])` and `product([b, a])` both
flatten to the same three-factor product and canonicalize identically. -/
theorem c2_counterexample :
    Expr.canonical_inner (Expr.product [Expr.scalar (.num 1)])
      ≠ Expr.canonical_inner (Expr.product [Expr.scalar (.num 1), Expr.scalar (.num 1)])
    ∧ Expr.canonical_inner (Expr.product
        [Expr.product [Expr.scalar (.num 1)],
         Expr.product [Expr.scalar (.num 1), Expr.scalar (.num 1)]])
      = Expr.canonical_inner (Expr.product
        [Expr.product [Expr.scalar (.num 1), Expr.scalar (.num 1)],
         Expr.product [Expr.scalar (.num 1)]]) := by
  have hs : Expr.canonical_inner (Expr.scalar (.num 1)) = Expr.scalar (.num 1) :=
    canonical_inner_of_leaf (flatten_of_isLeaf rfl) rfl
  constructor
  · have h1 : Expr.flatten (Expr.product [Expr.scalar (.num 1)])
        = Expr.product [Expr.scalar (.num 1)] := by decide
    have h2 : Expr.flatten (Expr.product [Expr.scalar (.num 1), Expr.scalar (.num 1)])
        = Expr.product [Expr.scalar (.num 1), Expr.scalar (.num 1)] := by decide
    rw [canonical_inner_of_product h1, canonical_inner_of_product h2]
    simp only [List.map_cons, List.map_nil, hs]
    decide
  · have hA : Expr.flatten (Expr.product
        [Expr.product [Expr.scalar (.num 1)],
         Expr.product [Expr.scalar (.num 1), Expr.scalar (.num 1)]])
        = Expr.product [Expr.scalar (.num 1), Expr.scalar (.num 1),
            Expr.scalar (.num 1)] := by decide
    have hB : Expr.flatten (Expr.product
        [Expr.product [Expr.scalar (.num 1), Expr.scalar (.num 1)],
         Expr.product [Expr.scalar (.num 1)]])
        = Expr.product [Expr.scalar (.num 1), Expr.scalar (.num 1),
            Expr.scalar (.num 1)] := by decide
    rw [canonical_inner_of_product hA, canonical_inner_of_product hB]

/-- Claim C2 (amended): the canonicalization of a `Product` is the
`Product` of the canonical forms of its flattened factors in their
original left-to-right order; and for two NON-`Product` expressions with
distinct canonical forms, swapping them inside a two-factor product
changes the canonical result.  (The restriction to non-`Product` operands
is what the counterexample forces: flattening splices `Product` operands
into the factor list.) -/
theorem c2_theorem (a b : Expr) (hpa : a.isProduct = false) (hpb : b.isProduct = false)
    (hne : Expr.canonical_inner a ≠ Expr.canonical_inner b) :
    (∀ fs : List Expr, Expr.canonical_inner (Expr.product fs)
        = Expr.product ((Expr.flattenProdList fs).map Expr.canonical_inner))
    ∧ Expr.canonical_inner (Expr.product [a, b])
        ≠ Expr.canonical_inner (Expr.product [b, a]) := by
  have hgen : ∀ fs : List Expr, Expr.canonical_inner (Expr.product fs)
      = Expr.product ((Expr.flattenProdList fs).map Expr.canonical_inner) := fun fs =>
    canonical_inner_of_product (by simp [Expr.flatten])
  refine ⟨hgen, ?_⟩
  intro heq
  rw [hgen, hgen] at heq
  have hfa : (Expr.flatten a).isProduct = false := by
    rw [isProduct_flatten]
    exact hpa
  have hfb : (Expr.flatten b).isProduct = false := by
    rw [isProduct_flatten]
    exact hpb
  have h2 : Expr.flattenProdList [a, b] = [Expr.flatten a, Expr.flatten b] := by
    simp [Expr.flattenProdList, spliceProd_of_not_product hfa,
      spliceProd_of_not_product hfb]
  have h3 : Expr.flattenProdList [b, a] = [Expr.flatten b, Expr.flatten a] := by
    simp [Expr.flattenProdList, spliceProd_of_not_product hfa,
      spliceProd_of_not_product hfb]
  rw [h2, h3] at heq
  simp only [List.map_cons, List.map_nil, Expr.product.injEq, List.cons.injEq,
    and_true] at heq
  obtain ⟨h4, -⟩ := heq
  rw [canonical_inner_flatten a, canonical_inner_flatten b] at h4
  exact hne h4

/-- Claim C2 (witness): the amended theorem applied to the scalars 1 and
2. -/
theorem c2_witness :
    (∀ fs : List Expr, Expr.canonical_inner (Expr.product fs)
        = Expr.product ((Expr.flattenProdList fs).map Expr.canonical_inner))
    ∧ Expr.canonical_inner (Expr.product [Expr.scalar (.num 1), Expr.scalar (.num 2)])
        ≠ Expr.canonical_inner (Expr.product [Expr.scalar (.num 2), Expr.scalar (.num 1)]) := by
  apply c2_theorem
  · rfl
  · rfl
  · rw [canonical_inner_of_leaf (e := Expr.scalar (.num 1)) (flatten_of_isLeaf rfl) rfl,
      canonical_inner_of_leaf (e := Expr.scalar (.num 2)) (flatten_of_isLeaf rfl) rfl]
    decide

/-- Claim C3 (counterexample): under the program's own equality (derived
`PartialEq`, the `==` the spec states the property with), idempotence
fails at `Scalar(NaN)`: canonicalization maps it to itself, but NaN is not
`==`-equal to itself. -/
theorem c3_counterexample :
    Expr.rustEq
      (Expr.canonical_inner (Expr.canonical_inner (Expr.scalar .nan)))
      (Expr.canonical_inner (Expr.scalar .nan)) = false := by
  have h1 : Expr.canonical_inner (Expr.scalar .nan) = Expr.scalar .nan :=
    canonical_inner_of_leaf (flatten_of_isLeaf rfl) rfl
  rw [h1, h1]
  decide

/-- Claim C3 (amended): for every NaN-free expression, canonicalizing the
result of canonicalization returns a structurally identical expression,
which the program's `==` also reports equal. -/
theorem c3_theorem (x : Expr) (h : x.nanFree = true) :
    Expr.canonical_inner (Expr.canonical_inner x) = Expr.canonical_inner x
    ∧ Expr.rustEq (Expr.canonical_inner (Expr.canonical_inner x))
        (Expr.canonical_inner x) = true := by
  refine ⟨canonical_inner_idem x, ?_⟩
  rw [canonical_inner_idem x]
  exact rustEq_refl _ (nanFree_canonical_inner x h)

/-- Claim C3 (witness): the amended theorem applied to the sum `2 + 1`. -/
theorem c3_witness :
    Expr.canonical_inner (Expr.canonical_inner
        (Expr.sum [Expr.scalar (.num 2), Expr.scalar (.num 1)]))
      = Expr.canonical_inner (Expr.sum [Expr.scalar (.num 2), Expr.scalar (.num 1)])
    ∧ Expr.rustEq
        (Expr.canonical_inner (Expr.canonical_inner
          (Expr.sum [Expr.scalar (.num 2), Expr.scalar (.num 1)])))
        (Expr.canonical_inner (Expr.sum [Expr.scalar (.num 2), Expr.scalar (.num 1)]))
        = true :=
  c3_theorem _ (by decide)

/-- Claim C4 (counterexample): with `a` itself a `Sum`, the flattened
two-level sum has four terms, not the three terms `a`, `b`, `c` the claim
promises: the nested sum `a` is spliced too. -/
theorem c4_counterexample :
    Expr.flatten (Expr.sum [Expr.sum [Expr.scalar (.num 1), Expr.scalar (.num 2)],
        Expr.sum [Expr.scalar (.num 3), Expr.scalar (.num 4)]])
      ≠ Expr.sum [Expr.sum [Expr.scalar (.num 1), Expr.scalar (.num 2)],
        Expr.scalar (.num 3), Expr.scalar (.num 4)]
    ∧ Expr.flatten (Expr.sum [Expr.sum [Expr.scalar (.num 1), Expr.scalar (.num 2)],
        Expr.sum [Expr.scalar (.num 3), Expr.scalar (.num 4)]])
      = Expr.sum [Expr.scalar (.num 1), Expr.scalar (.num 2), Expr.scalar (.num 3),
        Expr.scalar (.num 4)] := by
  constructor <;> decide

/-- Claim C4 (amended): for flatten-invariant non-`Sum` expressions `a`,
`b`, `c` (in particular leaves), `flatten(sum([a, sum([b, c])]))` is
exactly the three-term sum `[a, b, c]`; the analogous splicing holds for
nested `Product`s, and `flatten` of any leaf is the leaf itself. -/
theorem c4_theorem (a b c : Expr)
    (hfa : Expr.flatten a = a) (hsa : a.isSum = false)
    (hfb : Expr.flatten b = b) (hsb : b.isSum = false)
    (hfc : Expr.flatten c = c) (hsc : c.isSum = false) :
    Expr.flatten (Expr.sum [a, Expr.sum [b, c]]) = Expr.sum [a, b, c]
    ∧ (∀ x y z : Expr, Expr.flatten x = x → x.isProduct = false →
        Expr.flatten y = y → y.isProduct = false →
        Expr.flatten z = z → z.isProduct = false →
        Expr.flatten (Expr.product [x, Expr.product [y, z]]) = Expr.product [x, y, z])
    ∧ (∀ e : Expr, e.isLeaf = true → Expr.flatten e = e) := by
  have hss : ∀ l : List Expr, Expr.spliceSum (Expr.sum l) = l := fun _ => rfl
  have hpp : ∀ l : List Expr, Expr.spliceProd (Expr.product l) = l := fun _ => rfl
  refine ⟨?_, ?_, fun e he => flatten_of_isLeaf he⟩
  · simp [Expr.flatten, Expr.flattenSumList, hfa, hfb, hfc,
      spliceSum_of_not_sum hsa, spliceSum_of_not_sum hsb, spliceSum_of_not_sum hsc,
      hss]
  · intro x y z hfx hpx hfy hpy hfz hpz
    simp [Expr.flatten, Expr.flattenProdList, hfx, hfy, hfz,
      spliceProd_of_not_product hpx, spliceProd_of_not_product hpy,
      spliceProd_of_not_product hpz, hpp]

/-- Claim C4 (witness): the amended theorem applied to three scalar
leaves. -/
theorem c4_witness :
    Expr.flatten (Expr.sum [Expr.scalar (.num 1),
        Expr.sum [Expr.scalar (.num 2), Expr.scalar (.num 3)]])
      = Expr.sum [Expr.scalar (.num 1), Expr.scalar (.num 2), Expr.scalar (.num 3)] :=
  (c4_theorem (Expr.scalar (.num 1)) (Expr.scalar (.num 2)) (Expr.scalar (.num 3))
    rfl rfl rfl rfl rfl rfl).1

/-- Claim C5 (counterexample): under the program's own equality (derived
`PartialEq`), flatten idempotence fails at `Scalar(NaN)`: `flatten` maps
it to itself, but NaN is not `==`-equal to itself. -/
theorem c5_counterexample :
    Expr.rustEq (Expr.flatten (Expr.flatten (Expr.scalar .nan)))
      (Expr.flatten (Expr.scalar .nan)) = false := by decide

/-- Claim C5 (amended): for every NaN-free expression,
`flatten(flatten(x))` is structurally identical to `flatten(x)`, and the
program's `==` also reports them equal.  (Structural idempotence
`flatten ∘ flatten = flatten` holds for every expression; only the `==`
reading needs the NaN-free restriction.) -/
theorem c5_theorem (x : Expr) (h : x.nanFree = true) :
    Expr.flatten (Expr.flatten x) = Expr.flatten x
    ∧ Expr.rustEq (Expr.flatten (Expr.flatten x)) (Expr.flatten x) = true := by
  refine ⟨flatten_flatten x, ?_⟩
  rw [flatten_flatten x]
  exact rustEq_refl _ (nanFree_flatten x h)

/-- Claim C5 (witness): the amended theorem applied to a nested sum. -/
theorem c5_witness :
    Expr.flatten (Expr.flatten (Expr.sum [Expr.scalar (.num 1),
        Expr.sum [Expr.scalar (.num 2), Expr.scalar (.num 3)]]))
      = Expr.flatten (Expr.sum [Expr.scalar (.num 1),
        Expr.sum [Expr.scalar (.num 2), Expr.scalar (.num 3)]])
    ∧ Expr.rustEq
        (Expr.flatten (Expr.flatten (Expr.sum [Expr.scalar (.num 1),
          Expr.sum [Expr.scalar (.num 2), Expr.scalar (.num 3)]])))
        (Expr.flatten (Expr.sum [Expr.scalar (.num 1),
          Expr.sum [Expr.scalar (.num 2), Expr.scalar (.num 3)]])) = true :=
  c5_theorem _ (by decide)

/-- Claim C6 (confirmed): `PauliString::new` removes every identity entry
and sorts the remaining entries in ascending index order (duplicates, if
any, stay adjacent), and normalizes the claim's concrete example as
promised. -/
theorem c6_theorem (l : List (Nat × Pauli)) :
    (∀ p ∈ (PauliString.new l).ops, p.2 ≠ Pauli.i)
    ∧ (PauliString.new l).ops.Pairwise (fun p q => p.1 ≤ q.1)
    ∧ (PauliString.new [(2, Pauli.x), (1, Pauli.i), (0, Pauli.y)]).ops
        = [(0, Pauli.y), (2, Pauli.x)] := by
  refine ⟨?_, ?_, by decide⟩
  · intro p hp
    have hp2 : p ∈ l.filter fun q => decide (q.2 ≠ Pauli.i) :=
      (stableSortBy_perm _ _).subset hp
    have hq := (List.mem_filter.mp hp2).2
    simpa using hq
  · have hch := stableSortBy_chain' (fun a b : Nat × Pauli => decide (a.1 ≤ b.1))
      (fun a b hf => by
        simp only [decide_eq_false_iff_not, not_le] at hf
        simp only [decide_eq_true_eq]
        omega) (l.filter fun q => decide (q.2 ≠ Pauli.i))
    have hp := pairwise_of_chain'_trans _
      (fun a _ b _ c _ h1 h2 => by
        simp only [decide_eq_true_eq] at h1 h2 ⊢
        omega) hch
    exact hp.imp (fun h => by simpa using h)

/-- Claim C6 (witness): the claim's concrete example, via the theorem. -/
theorem c6_witness :
    (PauliString.new [(2, Pauli.x), (1, Pauli.i), (0, Pauli.y)]).ops
      = [(0, Pauli.y), (2, Pauli.x)] :=
  (c6_theorem []).2.2

/-- Claim C7 (confirmed): `from_string` succeeds exactly when every
character is one of `I`, `X`, `Y`, `Z`; on success each character's
position becomes its qubit index (before `new`'s normalization); on
failure the returned value is the "Invalid Pauli character" message naming
an offending character; `"XZYIZZ"` parses and `"XZTAL"` does not. -/
theorem c7_theorem (s : String) :
    ((PauliString.from_string s).isOk = true ↔ ∀ c ∈ s.toList, isPauliChar c = true)
    ∧ ((∀ c ∈ s.toList, isPauliChar c = true) →
        PauliString.from_string s
          = .ok (PauliString.new ((s.toList.enum).map fun ic => (ic.1, forcePauli ic.2))))
    ∧ (∀ e, PauliString.from_string s = .error e →
        ∃ c ∈ s.toList, isPauliChar c = false ∧ e = pauliErrMsg c)
    ∧ (PauliString.from_string ("XZYIZZ")).isOk = true
    ∧ (PauliString.from_string ("XZTAL")).isOk = false := by
  have hok : (∀ c ∈ s.toList, isPauliChar c = true) →
      PauliString.from_string s
        = .ok (PauliString.new ((s.toList.enum).map fun ic => (ic.1, forcePauli ic.2))) := by
    intro hall
    unfold PauliString.from_string
    rw [List.enum_eq_enumFrom, collect_enumFrom_ok s.toList 0 hall, except_map_ok]
  refine ⟨⟨?_, fun hall => by rw [hok hall]; rfl⟩, hok, ?_, by decide, by decide⟩
  · intro hisok
    rcases collect_valid_or_error s.toList 0 with hall | ⟨e, he⟩
    · exact hall
    · exfalso
      have herr : PauliString.from_string s = .error e := by
        unfold PauliString.from_string
        rw [List.enum_eq_enumFrom, he, except_map_error]
      rw [herr] at hisok
      cases hisok
  · intro e he
    unfold PauliString.from_string at he
    rw [List.enum_eq_enumFrom] at he
    cases hc : collectResults ((List.enumFrom 0 s.toList).map fun ic =>
        (Pauli.tryFromChar ic.2).map fun p => (ic.1, p)) with
    | ok v =>
      rw [hc, except_map_ok] at he
      cases he
    | error e2 =>
      rw [hc, except_map_error] at he
      injection he with hee
      subst hee
      exact collect_error_mem s.toList 0 _ hc

/-- Claim C7 (witness): the parser rejects `"XZTAL"`. -/
theorem c7_witness : (PauliString.from_string ("XZTAL")).isOk = false :=
  (c7_theorem ("XZTAL")).2.2.2.2

/-- Claim C8 (confirmed): ordering of `PauliString`s is exactly the
lexicographic comparison of their index sequences, ignoring operators;
hence two strings with the same indices but different operators compare as
order-equal while being value-unequal. -/
theorem c8_theorem :
    (∀ p q : PauliString, PauliString.cmp p q
        = listCmpWith natCmp (p.ops.map Prod.fst) (q.ops.map Prod.fst))
    ∧ (∀ p q : PauliString, PauliString.cmp p q = .eq
        ↔ p.ops.map Prod.fst = q.ops.map Prod.fst)
    ∧ (∃ p q : PauliString, PauliString.cmp p q = .eq ∧ p ≠ q) := by
  refine ⟨fun p q => rfl, fun p q => ?_,
    ⟨⟨[(0, Pauli.x)]⟩, ⟨[(0, Pauli.y)]⟩, by decide, by decide⟩⟩
  exact listCmpWith_eq_eq natCmp (fun a b => natCmp_eq_eq) _ _

/-- Claim C8 (witness): the order-equal-but-value-unequal pair exists. -/
theorem c8_witness : ∃ p q : PauliString, PauliString.cmp p q = .eq ∧ p ≠ q :=
  c8_theorem.2.2

/-- Claim C9 (confirmed): the sort comparator silently maps every
undecided comparison to `Equal` (`unwrap_or(Equal)`), the undecided case
is reachable (NaN), and canonicalization of a sum containing NaN still
produces a result — in the model all functions are total, matching the
absence of any panic site in `flatten`/`canonical_inner`. -/
theorem c9_theorem :
    (∀ a b : Expr, Expr.cmp a b = none → Expr.sortCmp a b = .eq)
    ∧ Expr.cmp (Expr.scalar .nan) (Expr.scalar (.num 1)) = none
    ∧ Expr.flatten (Expr.scalar .nan) = Expr.scalar .nan
    ∧ Expr.canonical_inner (Expr.sum [Expr.scalar .nan, Expr.scalar (.num 1)])
        = Expr.sum [Expr.scalar .nan, Expr.scalar (.num 1)] := by
  refine ⟨fun a b h => by simp [Expr.sortCmp, h], by decide, by decide, ?_⟩
  have h1 : Expr.canonical_inner (Expr.scalar .nan) = Expr.scalar .nan :=
    canonical_inner_of_leaf (flatten_of_isLeaf rfl) rfl
  have h2 : Expr.canonical_inner (Expr.scalar (.num 1)) = Expr.scalar (.num 1) :=
    canonical_inner_of_leaf (flatten_of_isLeaf rfl) rfl
  have hf : Expr.flatten (Expr.sum [Expr.scalar .nan, Expr.scalar (.num 1)])
      = Expr.sum [Expr.scalar .nan, Expr.scalar (.num 1)] := by decide
  rw [canonical_inner_of_sum hf]
  simp only [List.map_cons, List.map_nil, h1, h2]
  decide

/-- Claim C9 (witness): the fallback fires on the NaN comparison. -/
theorem c9_witness : Expr.sortCmp (Expr.scalar .nan) (Expr.scalar (.num 1)) = .eq :=
  c9_theorem.1 _ _ (by decide)

/-- Claim C10 (confirmed): across different variants the derived
comparison is decided purely by the declaration-order rank
`Scalar < Symbol < Pauli < Sum < Product`, and consequently the term list
of every canonicalized `Sum` is weakly sorted by that rank (all `Scalar`s
first, then `Symbol`s, then `Pauli`s, then `Sum`s, then `Product`s). -/
theorem c10_theorem :
    (∀ a b : Expr, a.rank ≠ b.rank → Expr.cmp a b = some (natCmp a.rank b.rank))
    ∧ (∀ ts : List Expr, ∃ us : List Expr,
        Expr.canonical_inner (Expr.sum ts) = Expr.sum us
        ∧ us.Pairwise fun a b => a.rank ≤ b.rank) := by
  constructor
  · intro a b hne
    rcases Nat.lt_trichotomy a.rank b.rank with h | h | h
    · rw [cmp_of_rank_lt h, natCmp_eq_lt.mpr h]
    · exact absurd h hne
    · rw [cmp_of_rank_gt h, natCmp_eq_gt.mpr h]
  · intro ts
    refine ⟨stableSortBy Expr.sortLe ((Expr.flattenSumList ts).map Expr.canonical_inner),
      canonical_inner_of_sum (by simp [Expr.flatten]), ?_⟩
    have hch := stableSortBy_chain' Expr.sortLe sortLe_total
      ((Expr.flattenSumList ts).map Expr.canonical_inner)
    have hch2 := List.Chain'.imp (fun a b h => rank_le_of_sortLe h) hch
    exact pairwise_of_chain'_trans _ (fun a _ b _ c _ h1 h2 => le_trans h1 h2) hch2

/-- Claim C10 (witness): a `Scalar` ranks strictly below a `Symbol`. -/
theorem c10_witness :
    Expr.cmp (Expr.scalar (.num 0)) (Expr.symbol (.named ("a")))
      = some (natCmp (Expr.scalar (.num 0)).rank (Expr.symbol (.named ("a"))).rank) :=
  c10_theorem.1 _ _ (by decide)

end Cation
